import Mathlib

/-!
Verification of the entity-resolution and graph-ingestion engine of the
`gamma_poc` repository against its natural-language specification.

The Python sources embedded here are:
  * `app/graphrag/graph_ingestion.py` — `EntityResolver`, `Neo4jWriter`,
    `GraphIngestor`, `_remap_relationships`, `_clean_props`, `_make_batches`;
  * `app/graphrag/entity_relation_extraction.py` — `EntityRelationExtractor`
    (window construction, LLM-response parsing, entity merging, relationship
    deduplication) together with its data classes;
  * `app/domain/ontology.py` — the closed entity/relationship type sets.

Modelling conventions:
  * Python `dict`s are insertion-ordered association lists
    `List (String × β)`; `d[k] = v` replaces the first binding in place or
    appends a fresh one at the end, exactly like CPython dicts.
  * JSON values are the mutual inductive `JVal`/`JArr`/`JObj`.  Numbers are
    modelled as integers; floating-point payloads are outside the model.
  * The external RapidFuzz scorer `fuzz.token_sort_ratio` is an opaque
    parameter `score : String → String → Nat` (its result is compared with
    an integer threshold; rounding to `Nat` loses nothing the code observes
    beyond ties at the threshold).  Python `str.lower` is modelled by the
    ASCII `lowerStr`; the names appearing in concrete runs are ASCII.
  * The LLM transport plus `json.loads` boundary is the opaque
    `OracleReply`: a transport failure, a non-JSON payload, or a decoded
    JSON document.
  * Paths on which CPython would raise an uncaught exception (for example a
    missing required key) are modelled with `Except`; a few crash-only
    corners that no claim touches (non-string `name` property values,
    non-mapping `properties` payloads) are fenced off by explicit
    hypotheses or rejected slightly earlier than CPython would crash, as
    noted at each definition.
-/

set_option autoImplicit false

namespace GammaPoc

/-! ## JSON values -/

mutual

/-- A JSON value as produced by `json.loads`. -/
inductive JVal where
  | null
  | bool (b : Bool)
  | int (n : Int)
  | str (s : String)
  | arr (xs : JArr)
  | obj (kvs : JObj)
deriving DecidableEq, Repr

/-- The element list of a JSON array. -/
inductive JArr where
  | nil
  | cons (v : JVal) (t : JArr)
deriving DecidableEq, Repr

/-- The ordered member list of a JSON object. -/
inductive JObj where
  | nil
  | cons (k : String) (v : JVal) (t : JObj)
deriving DecidableEq, Repr

end

/-- View a JSON object as an ordered association list. -/
def JObj.toList : JObj → List (String × JVal)
  | .nil => []
  | .cons k v t => (k, v) :: t.toList

/-- View a JSON array as a list. -/
def JArr.toList : JArr → List JVal
  | .nil => []
  | .cons v t => v :: t.toList

/-- Build a JSON object from an association list (for concrete payloads). -/
def jobjOf : List (String × JVal) → JObj
  | [] => .nil
  | (k, v) :: t => .cons k v (jobjOf t)

/-- Build a JSON array from a list (for concrete payloads). -/
def jarrOf : List JVal → JArr
  | [] => .nil
  | v :: t => .cons v (jarrOf t)

/-- Whether a JSON value is a string (used to phrase counterexamples). -/
def JVal.isStr : JVal → Bool
  | .str _ => true
  | _ => false

/-! ## Python dictionaries as insertion-ordered association lists -/

section Dict

variable {α β : Type} [DecidableEq α]

/-- `d.get(k)` / `d[k]` read access: the first binding of `k`. -/
def dget? (m : List (α × β)) (k : α) : Option β :=
  (m.find? (fun p => p.1 = k)).map (fun p => p.2)

/-- `d[k] = v`: replace the first binding of `k` in place, else append. -/
def dset (m : List (α × β)) (k : α) (v : β) : List (α × β) :=
  match m with
  | [] => [(k, v)]
  | (k', v') :: rest => if k' = k then (k, v) :: rest else (k', v') :: dset rest k v

/-- `d.update(u)`: fold `d[k] = v` over the entries of `u` in order. -/
def dupd (m u : List (α × β)) : List (α × β) :=
  u.foldl (fun acc kv => dset acc kv.1 kv.2) m

/-- The key list of a dictionary, in insertion order. -/
def keysOf (m : List (α × β)) : List α :=
  m.map (fun p => p.1)

/-- The value the last binding of `k` in `u` carries, if any.  This is the
value `k` holds after `d.update(u)` whenever `u` binds `k`. -/
def updLast (u : List (α × β)) (k : α) : Option β :=
  match u with
  | [] => none
  | (a, b) :: t =>
    match updLast t k with
    | some v => some v
    | none => if a = k then some b else none

end Dict

/-- ASCII lower-casing of a character (model of `str.lower` on the ASCII
names this system manipulates). -/
def lowerChar (c : Char) : Char :=
  if 'A' ≤ c ∧ c ≤ 'Z' then Char.ofNat (c.toNat + 32) else c

/-- ASCII lower-casing of a string. -/
def lowerStr (s : String) : String :=
  String.mk (s.data.map lowerChar)

/-! ## `graph_ingestion.py`: data containers and the entity resolver -/

/-- `FUZZY_THRESHOLD = 88` (module-level tuneable knob). -/
def FUZZY_THRESHOLD : Nat := 88

/-- `BATCH_SIZE = 200` (Neo4j UNWIND batch size). -/
def BATCH_SIZE : Nat := 200

/-- A raw entity dict as it appears in the extraction JSON consumed by
`EntityResolver.resolve`: `{id, type, properties, source}`.  `resolve`
reads `raw["id"]`, `raw["type"]`, `raw.get("properties", {})` and
`raw.get("source", {})`; absent `properties`/`source` are the empty
dictionary, which this structure represents as `[]`. -/
structure RawEntity where
  id : String
  type : String
  properties : List (String × JVal)
  source : List (String × JVal)
deriving DecidableEq, Repr

/-- `ResolvedEntity` dataclass: an entity after ID-resolution. -/
structure ResolvedEntity where
  id : String
  type : String
  properties : List (String × JVal)
  sources : List (List (String × JVal))
deriving DecidableEq, Repr

/-- A raw relationship dict from the extraction JSON, as read by
`_remap_relationships` (`r["source_id"]`, `r["target_id"]`, `r["type"]`,
`r.get("properties", {})`, `r.get("source", {})`). -/
structure RawRelationship where
  source_id : String
  target_id : String
  type : String
  properties : List (String × JVal)
  source : List (String × JVal)
deriving DecidableEq, Repr

/-- `ResolvedRelationship` dataclass. -/
structure ResolvedRelationship where
  source_id : String
  target_id : String
  type : String
  properties : List (String × JVal)
  sources : List (List (String × JVal))
deriving DecidableEq, Repr

/-- The mutable state of an `EntityResolver` instance: the similarity
threshold, the canonical registry (`canonical_id → ResolvedEntity`,
insertion-ordered) and the per-type name index
(`type → {canonical_id: name}`, both levels insertion-ordered). -/
structure EntityResolver where
  threshold : Nat
  registry : List (String × ResolvedEntity)
  name_index : List (String × List (String × String))
deriving DecidableEq, Repr

/-- `EntityResolver.__init__`. -/
def initResolver (fuzzy_threshold : Nat) : EntityResolver :=
  { threshold := fuzzy_threshold, registry := [], name_index := [] }

/-- `self._name_index.get(etype, {})`: the name bucket of one entity type
(`defaultdict` read access without insertion, as done in
`_find_canonical`). -/
def bucketOf (st : EntityResolver) (etype : String) : List (String × String) :=
  (dget? st.name_index etype).getD []

/-- `name: str = props.get("name", raw_id)`.  A non-string `name` value
would make CPython crash at `name.lower()` inside `_find_canonical` (unless
the exact-id check short-circuits); such entities are fenced off by the
`StrNamed` hypothesis wherever a theorem quantifies over entities. -/
def entityName (e : RawEntity) : String :=
  match dget? e.properties "name" with
  | some (.str s) => s
  | some _ => e.id
  | none => e.id

/-- The `name` property of an entity, when present, is a string — the
region in which `entityName` is a faithful model. -/
def StrNamed (e : RawEntity) : Prop :=
  ∀ v, dget? e.properties "name" = some v → v.isStr = true

instance (e : RawEntity) : Decidable (StrNamed e) := by
  unfold StrNamed; infer_instance

/-- The predicate of the fuzzy scan of `_find_canonical`:
`fuzz.token_sort_ratio(name.lower(), cname.lower()) >= self.threshold`
applied to one name-bucket binding `(canonical id, registered name)`. -/
def fuzzyPred (score : String → String → Nat) (st : EntityResolver) (nm : String) :
    (String × String) → Bool :=
  fun p => st.threshold ≤ score (lowerStr nm) (lowerStr p.2)

/-- `EntityResolver._find_canonical`: exact-id check first, then the
first fuzzy name match (score at or above the threshold) within the same
entity type, scanning the name bucket in insertion order. -/
def find_canonical (score : String → String → Nat) (st : EntityResolver)
    (raw_id etype nm : String) : Option String :=
  if (st.registry.find? (fun p => p.1 = raw_id)).isSome then some raw_id
  else
    match (bucketOf st etype).find? (fuzzyPred score st nm) with
    | some p => some p.1
    | none => none

/-- The fresh `ResolvedEntity` the brand-new-entity branch of `resolve`
constructs: it copies the raw properties and starts its provenance list
with the raw source when that source is truthy. -/
def regEntity (e : RawEntity) : ResolvedEntity :=
  { id := e.id, type := e.type, properties := e.properties,
    sources := if e.source ≠ [] then [e.source] else [] }

/-- The brand-new-entity branch of `resolve`: register the incoming entity
as canonical (`self._registry[raw_id] = entity`;
`self._name_index[etype][raw_id] = name`). -/
def registerNew (st : EntityResolver) (e : RawEntity) : EntityResolver :=
  { st with
    registry := dset st.registry e.id (regEntity e),
    name_index :=
      dset st.name_index e.type (dset (bucketOf st e.type) e.id (entityName e)) }

/-- The merge branch of `resolve` applied to one registry entry:
`existing.properties.update(props)` and append the source when it is
truthy and not already recorded. -/
def mergeEntity (ent : ResolvedEntity) (e : RawEntity) : ResolvedEntity :=
  { ent with
    properties := dupd ent.properties e.properties,
    sources :=
      if e.source ≠ [] ∧ e.source ∉ ent.sources then ent.sources ++ [e.source]
      else ent.sources }

/-- The merge branch of `resolve` on the whole state: mutate the canonical
entry `cid` in place. -/
def mergeInto (st : EntityResolver) (cid : String) (e : RawEntity) : EntityResolver :=
  { st with
    registry := st.registry.map (fun p => if p.1 = cid then (p.1, mergeEntity p.2 e) else p) }

/-- The canonical id `resolve` assigns to one incoming entity at the
current state (the registered id on a find miss, else the found id). -/
def assignedCanonical (score : String → String → Nat) (st : EntityResolver)
    (e : RawEntity) : String :=
  match find_canonical score st e.id e.type (entityName e) with
  | some cid => cid
  | none => e.id

/-- One iteration of the `for raw in entities` loop of `resolve`, state
component. -/
def resolveStep (score : String → String → Nat) (st : EntityResolver)
    (e : RawEntity) : EntityResolver :=
  match find_canonical score st e.id e.type (entityName e) with
  | none => registerNew st e
  | some cid => mergeInto st cid e

/-- One iteration of the `for raw in entities` loop of `resolve`, state
plus `alias_map` accumulator. -/
def resolveFold (score : String → String → Nat)
    (p : EntityResolver × List (String × String)) (e : RawEntity) :
    EntityResolver × List (String × String) :=
  (resolveStep score p.1 e, dset p.2 e.id (assignedCanonical score p.1 e))

/-- `EntityResolver.resolve`: register a batch of raw entity dicts and
return `(resolved_entities, alias_map)`; the returned entity list is
`list(self._registry.values())` of the post-state. -/
def resolve (score : String → String → Nat) (st : EntityResolver)
    (entities : List RawEntity) :
    EntityResolver × List ResolvedEntity × List (String × String) :=
  let p := entities.foldl (resolveFold score) (st, [])
  (p.1, p.1.registry.map (fun q => q.2), p.2)

/-- Processing a list of raw entities for the state component only (the
alias-map accumulator does not influence the state). -/
def stProcess (score : String → String → Nat) (st : EntityResolver)
    (entities : List RawEntity) : EntityResolver :=
  entities.foldl (resolveStep score) st

/-- A sequence of `resolve` calls on one resolver instance (only the state
persists between calls; each call gets a fresh `alias_map`). -/
def runBatches (score : String → String → Nat) (st : EntityResolver)
    (batches : List (List RawEntity)) : EntityResolver :=
  batches.foldl (fun s b => (resolve score s b).1) st

/-- A concrete stand-in for `fuzz.token_sort_ratio` used by the concrete
runs below: identical (lower-cased) names score 100, all other pairs score
0.  On every pair of names a concrete run feeds it, this agrees with
RapidFuzz: `token_sort_ratio` of two equal strings is 100, and the only
distinct pairs used (such as "zzz" vs "infosys") score far below 88. -/
def sampleScore (a b : String) : Nat :=
  if a = b then 100 else 0

/-- `_remap_relationships`: rewrite both endpoint ids through the alias
map (`alias_map.get(id, id)`), keep type and properties, and wrap the raw
source in a one-element provenance list. -/
def remap_relationships (raw_rels : List RawRelationship)
    (alias_map : List (String × String)) : List ResolvedRelationship :=
  raw_rels.foldl
    (fun resolved r =>
      resolved ++
        [{ source_id := (dget? alias_map r.source_id).getD r.source_id,
           target_id := (dget? alias_map r.target_id).getD r.target_id,
           type := r.type,
           properties := r.properties,
           sources := [r.source] }])
    []

/-! ## `graph_ingestion.py`: property sanitisation and the Neo4j writer -/

/-- One character of Python `json.dumps` string escaping (quote, backslash
and the common control characters; `ensure_ascii` escaping of non-ASCII
characters is outside the model — concrete payloads are ASCII). -/
def jsonEscapeChar (c : Char) : String :=
  if c = '"' then "\\\""
  else if c = '\\' then "\\\\"
  else if c = '\n' then "\\n"
  else if c = '\t' then "\\t"
  else if c = '\r' then "\\r"
  else String.singleton c

/-- `json.dumps` of a string value. -/
def json_dumps_str (s : String) : String :=
  "\"" ++ String.join (s.data.map jsonEscapeChar) ++ "\""

mutual

/-- Python `json.dumps` with its default separators. -/
def json_dumps : JVal → String
  | .null => "null"
  | .bool b => if b then "true" else "false"
  | .int n => toString n
  | .str s => json_dumps_str s
  | .arr xs => "[" ++ json_dumps_arr xs ++ "]"
  | .obj kvs => "\x7b" ++ json_dumps_obj kvs ++ "\x7d"

/-- `json.dumps` of the members of an array, comma-separated. -/
def json_dumps_arr : JArr → String
  | .nil => ""
  | .cons v .nil => json_dumps v
  | .cons v t => json_dumps v ++ ", " ++ json_dumps_arr t

/-- `json.dumps` of the members of an object, comma-separated. -/
def json_dumps_obj : JObj → String
  | .nil => ""
  | .cons k v .nil => json_dumps_str k ++ ": " ++ json_dumps v
  | .cons k v t => json_dumps_str k ++ ": " ++ json_dumps v ++ ", " ++ json_dumps_obj t

end

/-- `isinstance(i, (str, int, float, bool))`: the element is a primitive
scalar (numbers are modelled by `.int`; `.null`, arrays and objects are
not primitive). -/
def isPrimitive : JVal → Bool
  | .bool _ => true
  | .int _ => true
  | .str _ => true
  | _ => false

/-- `_clean_props`: sanitise property values for Neo4j.  `None` values are
dropped; a nested mapping is flattened one level into `parentKey_childKey`
bindings (sub-values that are `None`, mappings or lists are dropped); a
list all of whose elements are primitive is kept as is, any other list is
serialised with `json.dumps`; scalars pass through. -/
def clean_props (props : List (String × JVal)) : List (String × JVal) :=
  props.foldl
    (fun clean kv =>
      match kv.2 with
      | .null => clean
      | .obj sub =>
        sub.toList.foldl
          (fun c skv =>
            match skv.2 with
            | .null => c
            | .obj _ => c
            | .arr _ => c
            | v => dset c (kv.1 ++ "_" ++ skv.1) v)
          clean
      | .arr xs =>
        if xs.toList.all isPrimitive then dset clean kv.1 (.arr xs)
        else dset clean kv.1 (.str (json_dumps (.arr xs)))
      | v => dset clean kv.1 v)
    []

/-- `_make_batches(items, size)`:
`[items[i : i + size] for i in range(0, len(items), size)]`, written with
`range(0, n, s) = [i*s for i in range(ceil(n/s))]` so that it reduces
structurally.  Python raises `ValueError` on `size = 0` (zero `range`
step); the model returns `[]` there, a case never exercised
(`BATCH_SIZE = 200`). -/
def make_batches {γ : Type} (items : List γ) (size : Nat) : List (List γ) :=
  (List.range ((items.length + size - 1) / size)).map
    (fun i => (items.drop (i * size)).take size)

/-- A node of the property graph: its property map (including the
`entity_id`, `entity_type` and `sources` properties the writer sets) and
its label set (insertion-ordered). -/
structure NodeRec where
  props : List (String × JVal)
  labels : List String
deriving DecidableEq, Repr

/-- An edge record: its property map (including the `sources` property). -/
structure EdgeRec where
  props : List (String × JVal)
deriving DecidableEq, Repr

/-- The graph store: nodes keyed by `entity_id`, edges keyed by
`(source entity_id, relationship type, target entity_id)` — the exact key
of the writer's `MERGE (a)-[r:TYPE]->(b)` pattern. -/
structure GraphDB where
  nodes : List (String × NodeRec)
  edges : List ((String × String × String) × EdgeRec)
deriving DecidableEq, Repr

/-- The empty store. -/
def emptyDB : GraphDB := { nodes := [], edges := [] }

/-- `[s IN $sources | s.document_id]`: project each provenance dict to its
`document_id` (Cypher yields `null` for a missing property). -/
def docIdsOf (sources : List (List (String × JVal))) : List JVal :=
  sources.map (fun s => (dget? s "document_id").getD .null)

/-- One iteration of `Neo4jWriter.write_entities`:
`MERGE (n {entity_id: $entity_id}) SET n += $props,
n.entity_type = $entity_type, n.sources = [...] SET n:LABEL`.
`MERGE` creates the node with only `entity_id` when absent; the `SET`
clauses then apply in order, and the dynamic label is added. -/
def write_entity (db : GraphDB) (e : ResolvedEntity) : GraphDB :=
  let base := (dget? db.nodes e.id).getD { props := [("entity_id", .str e.id)], labels := [] }
  let props1 := dupd base.props (clean_props e.properties)
  let props2 := dset props1 "entity_type" (.str e.type)
  let props3 := dset props2 "sources" (.arr (jarrOf (docIdsOf e.sources)))
  let labels := if e.type ∈ base.labels then base.labels else base.labels ++ [e.type]
  { db with nodes := dset db.nodes e.id { props := props3, labels := labels } }

/-- `Neo4jWriter.write_entities`: chunk into batches of `BATCH_SIZE` and
upsert every entity of every batch in order. -/
def write_entities (db : GraphDB) (entities : List ResolvedEntity) : GraphDB :=
  (make_batches entities BATCH_SIZE).foldl
    (fun d batch => batch.foldl write_entity d) db

/-- One iteration of `Neo4jWriter.write_relationships`:
`MATCH (a {entity_id: $src_id}), (b {entity_id: $tgt_id})
MERGE (a)-[r:TYPE]->(b) SET r += $props, r.sources = [...]`.
When either endpoint node is missing the `MATCH` yields no row and
nothing is written.  The `MERGE` pattern carries no properties, so the
edge key is exactly `(src, type, tgt)`. -/
def write_relationship (db : GraphDB) (r : ResolvedRelationship) : GraphDB :=
  if (dget? db.nodes r.source_id).isSome ∧ (dget? db.nodes r.target_id).isSome then
    let key := (r.source_id, r.type, r.target_id)
    let base := (dget? db.edges key).getD { props := [] }
    let props1 := dupd base.props (clean_props r.properties)
    let props2 := dset props1 "sources" (.arr (jarrOf (docIdsOf r.sources)))
    { db with edges := dset db.edges key { props := props2 } }
  else db

/-- `Neo4jWriter.write_relationships` (no batching in the source). -/
def write_relationships (db : GraphDB) (rels : List ResolvedRelationship) : GraphDB :=
  rels.foldl write_relationship db

/-- The extraction JSON file consumed by `GraphIngestor.ingest`. -/
structure ExtractionDoc where
  document_id : String
  entities : List RawEntity
  relationships : List RawRelationship
deriving DecidableEq, Repr

/-- The pure core of `GraphIngestor.ingest`: resolve the document's
entities, remap its relationships through the returned alias map, then
write entities and relationships to the store.  Returns the new resolver
state, the new store and the resolved relationship records. -/
def ingest (score : String → String → Nat) (st : EntityResolver) (db : GraphDB)
    (doc : ExtractionDoc) :
    EntityResolver × GraphDB × List ResolvedRelationship :=
  let r := resolve score st doc.entities
  let rels := remap_relationships doc.relationships r.2.2
  let db1 := write_entities db r.2.1
  let db2 := write_relationships db1 rels
  (r.1, db2, rels)

/-! ## `ontology.py` -/

/-- The keys of the `ENTITY_TYPES` ontology dict (the per-type attribute
lists only feed the LLM prompt). -/
def ENTITY_TYPES : List String :=
  ["Company", "Segment", "Metric", "MetricValue", "Period", "Risk",
   "Policy", "Person", "Geography", "Product", "Event", "LegalEntity"]

/-- The `RELATIONSHIP_TYPES` ontology list. -/
def RELATIONSHIP_TYPES : List String :=
  ["HAS_SEGMENT", "REPORTS", "HAS_VALUE", "IN_PERIOD", "COMPARED_TO",
   "INCREASED_BY", "DECREASED_BY", "RELATED_TO", "IMPACTS", "MITIGATES",
   "OPERATES_IN", "EMPLOYED_BY", "OVERSEES", "HAS_RISK", "HAS_POLICY",
   "SUBSIDIARY_OF", "DISCLOSED_IN", "MERGED_INTO", "DIVESTED", "ACQUIRED",
   "SUCCEEDED_BY", "COMPONENT_OF", "ROLL_UP_TO"]

/-! ## `entity_relation_extraction.py`: the window merger -/

/-- The `Entity` dataclass of the extractor (`id` is annotated `str`). -/
structure Entity where
  id : String
  type : String
  properties : List (String × JVal)
  source : List (String × JVal)
deriving DecidableEq, Repr

/-- The `Relationship` dataclass of the extractor. -/
structure Relationship where
  source_id : String
  target_id : String
  type : String
  properties : List (String × JVal)
  source : List (String × JVal)
deriving DecidableEq, Repr

/-- One entry of `ExtractionResult.errors`: `{"pages": …, "message": …}`. -/
structure ErrorRec where
  pages : String
  message : String
deriving DecidableEq, Repr

/-- The `ExtractionResult` dataclass. -/
structure ExtractionResult where
  document_id : String
  entities : List Entity
  relationships : List Relationship
  errors : List ErrorRec
deriving DecidableEq, Repr

/-- One page of the parsed document (only its `page_number` is observable
to the merger logic; the text blocks feed the prompt). -/
structure Page where
  page_number : Nat
deriving DecidableEq, Repr

/-- What one oracle call (`_call_llm` followed by `json.loads`) yields:
a transport failure (`_call_llm` returned `None`), a payload that is not
JSON (`json.JSONDecodeError`, carrying the snippet used in the recorded
message), or a decoded JSON document. -/
inductive OracleReply where
  | failure
  | notJson (snippet : String)
  | payload (data : JVal)

/-- The extraction oracle as the merger sees it: it receives the window's
pages, the already-known entity ids and the window's page range. -/
def Oracle : Type := List Page → List String → String → OracleReply

/-- The `while start < total` loop of `_build_windows`, made structural
with a fuel counter.  With `0 < step_size` the loop runs at most `total`
times (`start` grows by `step_size` every iteration), so the fuel
`total + 1` the wrapper passes never runs out; `step_size = 0` (where the
Python loop can hang) is outside every configuration used. -/
def build_windows_fuel (window_size step_size total : Nat) :
    Nat → Nat → List (Nat × Nat)
  | 0, _ => []
  | fuel + 1, start =>
    if start < total then
      let e := min (start + window_size) total
      if e = total then [(start, e)]
      else (start, e) :: build_windows_fuel window_size step_size total fuel (start + step_size)
    else []

/-- `_build_windows(total)`: `[0, W), [S, S+W), …`, the final window
clipped at `total`. -/
def build_windows (window_size step_size total : Nat) : List (Nat × Nat) :=
  build_windows_fuel window_size step_size total (total + 1) 0

/-- The `f"{page_nums[0]}-{page_nums[-1]}"` page-range tag of a window's
page list; `none` models the `IndexError` an empty window would raise. -/
def window_range (wpages : List Page) : Option String :=
  match wpages with
  | [] => none
  | p0 :: rest =>
    some (toString p0.page_number ++ "-" ++ toString (rest.getLastD p0).page_number)

/-- Read the `source` member of a payload record:
`{**e.get("source", {}), "document_id": self.document_id}` requires the
value, when present, to be a mapping (otherwise CPython raises a
`TypeError` at the `**` splice). -/
def parse_source (v : Option JVal) : Except String (List (String × JVal)) :=
  match v with
  | none => .ok []
  | some (.obj s) => .ok s.toList
  | some _ => .error "TypeError: source payload is not a mapping"

/-- Read the `properties` member of a payload record.  CPython stores a
non-mapping value as is and crashes only later (on
`properties.update` in `_merge_entities` or `properties.get` in
`_deduplicate_relationships`); the model rejects it at parse time — in
both accounts the document aborts with an uncaught exception. -/
def parse_props (v : Option JVal) : Except String (List (String × JVal)) :=
  match v with
  | none => .ok []
  | some (.obj s) => .ok s.toList
  | some _ => .error "TypeError: properties payload is not a mapping"

/-- One iteration of the entity loop of `_parse_llm_response`: an unknown
(or non-string) `type` skips the record with a warning; an absent `id`
raises `KeyError` (a non-string `id` is outside the `id: str` dataclass
contract and is rejected too); the provenance dict gains the
`document_id`. -/
def parse_entity (docId : String) (e : JVal) : Except String (Option Entity) :=
  match e with
  | .obj kvs =>
    let l := kvs.toList
    match (dget? l "type").getD (.str "") with
    | .str t =>
      if t ∈ ENTITY_TYPES then do
        let src0 ← parse_source (dget? l "source")
        let src := dset src0 "document_id" (.str docId)
        match dget? l "id" with
        | none => .error "KeyError: id"
        | some (.str i) => do
          let props ← parse_props (dget? l "properties")
          .ok (some { id := i, type := t, properties := props, source := src })
        | some _ => .error "TypeError: non-string entity id"
      else .ok none
    | .arr _ => .error "TypeError: unhashable type used in membership test"
    | .obj _ => .error "TypeError: unhashable type used in membership test"
    | _ => .ok none
  | _ => .error "AttributeError: entity payload is not a mapping"

/-- One iteration of the relationship loop of `_parse_llm_response`. -/
def parse_relationship (docId : String) (r : JVal) :
    Except String (Option Relationship) :=
  match r with
  | .obj kvs =>
    let l := kvs.toList
    match (dget? l "type").getD (.str "") with
    | .str t =>
      if t ∈ RELATIONSHIP_TYPES then do
        let src0 ← parse_source (dget? l "source")
        let src := dset src0 "document_id" (.str docId)
        match dget? l "source_id" with
        | none => .error "KeyError: source_id"
        | some (.str si) =>
          match dget? l "target_id" with
          | none => .error "KeyError: target_id"
          | some (.str ti) => do
            let props ← parse_props (dget? l "properties")
            .ok (some { source_id := si, target_id := ti, type := t,
                        properties := props, source := src })
          | some _ => .error "TypeError: non-string target id"
        | some _ => .error "TypeError: non-string source id"
      else .ok none
    | .arr _ => .error "TypeError: unhashable type used in membership test"
    | .obj _ => .error "TypeError: unhashable type used in membership test"
    | _ => .ok none
  | _ => .error "AttributeError: relationship payload is not a mapping"

/-- `data.get("entities", [])` / `data.get("relationships", [])` as an
iteration source: a missing member iterates over nothing; a list iterates
over its elements; an empty string or empty mapping also iterates over
nothing (Python iterates characters/keys); anything non-iterable, or an
iterable whose elements are not records, fails further in. -/
def parse_jlist (v : Option JVal) : Except String (List JVal) :=
  match v with
  | none => .ok []
  | some (.arr xs) => .ok xs.toList
  | some (.str s) =>
    if s = "" then .ok [] else .error "AttributeError: payload record is not a mapping"
  | some (.obj .nil) => .ok []
  | some (.obj _) => .error "AttributeError: payload record is not a mapping"
  | some _ => .error "TypeError: payload member is not iterable"

/-- The entity loop of `_parse_llm_response`. -/
def collect_entities (docId : String) : List JVal → Except String (List Entity)
  | [] => .ok []
  | x :: rest => do
    let oe ← parse_entity docId x
    let tail ← collect_entities docId rest
    match oe with
    | some e => .ok (e :: tail)
    | none => .ok tail

/-- The relationship loop of `_parse_llm_response`. -/
def collect_relationships (docId : String) :
    List JVal → Except String (List Relationship)
  | [] => .ok []
  | x :: rest => do
    let or ← parse_relationship docId x
    let tail ← collect_relationships docId rest
    match or with
    | some r => .ok (r :: tail)
    | none => .ok tail

/-- `_parse_llm_response` on a decoded payload (the `json.loads` failure
branch is the `OracleReply.notJson` case of the caller).  An uncaught
exception inside the loops is an `Except.error` and aborts the
document. -/
def parse_llm_response (docId : String) (data : JVal) :
    Except String (List Entity × List Relationship) :=
  match data with
  | .obj kvs => do
    let l := kvs.toList
    let es ← parse_jlist (dget? l "entities")
    let ents ← collect_entities docId es
    let rs ← parse_jlist (dget? l "relationships")
    let rels ← collect_relationships docId rs
    .ok (ents, rels)
  | _ => .error "AttributeError: payload is not a mapping"

/-- `{e.id: e for e in existing}`: build the id-indexed dict (a duplicate
id replaces the value at its first position, as in CPython). -/
def ent_index_set (m : List Entity) (e : Entity) : List Entity :=
  match m with
  | [] => [e]
  | x :: rest => if x.id = e.id then e :: rest else x :: ent_index_set rest e

/-- One iteration of the `for new in incoming` loop of `_merge_entities`:
update the existing entry's properties in place, or append the new
entity. -/
def ent_merge_step (m : List Entity) (n : Entity) : List Entity :=
  if (m.find? (fun x => x.id = n.id)).isSome then
    m.map (fun x =>
      if x.id = n.id then { x with properties := dupd x.properties n.properties } else x)
  else m ++ [n]

/-- `_merge_entities(existing, incoming)`. -/
def merge_entities (existing incoming : List Entity) : List Entity :=
  incoming.foldl ent_merge_step (existing.foldl ent_index_set [])

/-- The dedup key of `_deduplicate_relationships`:
`(source_id, type, target_id, properties.get("filing_year"))`. -/
def relKey (r : Relationship) : String × String × String × Option JVal :=
  (r.source_id, r.type, r.target_id, dget? r.properties "filing_year")

/-- The loop of `_deduplicate_relationships` with its `seen` set. -/
def dedup_aux (seen : List (String × String × String × Option JVal)) :
    List Relationship → List Relationship
  | [] => []
  | r :: rest =>
    if relKey r ∈ seen then dedup_aux seen rest
    else r :: dedup_aux (relKey r :: seen) rest

/-- `_deduplicate_relationships`: keep the first occurrence of every
`(source_id, type, target_id, filing_year)` key. -/
def deduplicate_relationships (rels : List Relationship) : List Relationship :=
  dedup_aux [] rels

/-- `window_pages = self.pages[start:end]`: the slice of one window. -/
def windowSlice (pages : List Page) (w : Nat × Nat) : List Page :=
  (pages.drop w.1).take (w.2 - w.1)

/-- The body of the `for start, end in windows` loop of
`process_document`: slice the window's pages, tag its page range, call
the oracle with the already-known entity ids, and either record a
window-scoped error (transport failure / JSON decode failure) or merge
the parsed entities and append the parsed relationships.  An exception
while parsing a decoded payload propagates and aborts the document. -/
def process_window (oracle : Oracle) (docId : String) (pages : List Page)
    (res : ExtractionResult) (w : Nat × Nat) : Except String ExtractionResult :=
  let wpages := windowSlice pages w
  match window_range wpages with
  | none => .error "IndexError: list index out of range"
  | some pr =>
    match oracle wpages (res.entities.map (fun e => e.id)) pr with
    | .failure =>
      .ok { res with errors := res.errors ++ [{ pages := pr, message := "LLM call failed" }] }
    | .notJson snip =>
      .ok { res with
            errors := res.errors ++ [{ pages := pr, message := "JSON decode error: " ++ snip }] }
    | .payload d =>
      match parse_llm_response docId d with
      | .error msg => .error msg
      | .ok (ents, rels) =>
        .ok { res with
              entities := merge_entities res.entities ents,
              relationships := res.relationships ++ rels }

/-- The window loop of `process_document`. -/
def process_windows (oracle : Oracle) (docId : String) (pages : List Page) :
    List (Nat × Nat) → ExtractionResult → Except String ExtractionResult
  | [], res => .ok res
  | w :: ws, res =>
    match process_window oracle docId pages res w with
    | .error m => .error m
    | .ok res' => process_windows oracle docId pages ws res'

/-- `EntityRelationExtractor.process_document` (default
`window_size = 3`, `step_size = 2`): slide the windows, accumulate, and
deduplicate the relationship set at the end. -/
def process_document (oracle : Oracle) (docId : String) (pages : List Page)
    (window_size step_size : Nat) : Except String ExtractionResult :=
  match process_windows oracle docId pages
      (build_windows window_size step_size pages.length)
      { document_id := docId, entities := [], relationships := [], errors := [] } with
  | .error m => .error m
  | .ok res => .ok { res with relationships := deduplicate_relationships res.relationships }

/-- Whether an `Except` outcome is an uncaught exception. -/
def isError {ε γ : Type} (x : Except ε γ) : Bool :=
  match x with
  | .error _ => true
  | .ok _ => false

instance {ε γ : Type} [DecidableEq ε] [DecidableEq γ] : DecidableEq (Except ε γ) :=
  fun a b =>
    match a, b with
    | .ok x, .ok y =>
      if h : x = y then isTrue (by rw [h]) else isFalse (by intro hc; cases hc; exact h rfl)
    | .error x, .error y =>
      if h : x = y then isTrue (by rw [h]) else isFalse (by intro hc; cases hc; exact h rfl)
    | .ok _, .error _ => isFalse (by intro hc; cases hc)
    | .error _, .ok _ => isFalse (by intro hc; cases hc)

/-- Shorthand for a page record. -/
def pg (n : Nat) : Page := ⟨n⟩

/-- A three-page document. -/
def threePages : List Page := [pg 1, pg 2, pg 3]

/-- A seven-page document (three windows at `window_size = 3`,
`step_size = 2`). -/
def sevenPages : List Page := [pg 1, pg 2, pg 3, pg 4, pg 5, pg 6, pg 7]

/-- A well-formed oracle payload carrying one `REPORTS` relationship. -/
def relPayload : JVal :=
  .obj (jobjOf [("relationships", .arr (jarrOf [
    .obj (jobjOf [("type", .str "REPORTS"), ("source_id", .str "a"), ("target_id", .str "b"),
                  ("properties", .obj (jobjOf [("filing_year", .str "FY24")]))])]))])

/-- An oracle that answers every window with `relPayload`. -/
def okOracle : Oracle := fun _ _ _ => .payload relPayload

/-- The result of `process_document okOracle "doc1" threePages 2 1`:
both windows report the same relationship; the document-level set keeps
one copy. -/
def okResult : ExtractionResult :=
  { document_id := "doc1", entities := [],
    relationships := [{ source_id := "a", target_id := "b", type := "REPORTS",
                        properties := [("filing_year", .str "FY24")],
                        source := [("document_id", .str "doc1")] }],
    errors := [] }

/-- A decoded JSON payload whose entity record has a known type but no
`"id"` member: `e["id"]` raises an uncaught `KeyError`. -/
def badPayload : JVal :=
  .obj (jobjOf [("entities", .arr (jarrOf [.obj (jobjOf [("type", .str "Company")])]))])

/-- An oracle whose middle window (pages `3-5` of `sevenPages` at
`window_size = 3`, `step_size = 2`) returns `badPayload`. -/
def crashOracle : Oracle :=
  fun _ _ pr => if pr = "3-5" then .payload badPayload else .payload relPayload

/-- An oracle model whose reply depends only on the window's page range
(the `known_entity_ids` fed into the prompt do not steer it). -/
def oracleOf (replyFor : String → OracleReply) : Oracle := fun _ _ pr => replyFor pr

/-- A reply table whose middle window (pages `3-5`) suffers a transport
failure; every other window succeeds with `relPayload`. -/
def replyFail : String → OracleReply :=
  fun pr => if pr = "3-5" then .failure else .payload relPayload

/-- Whether a reply is handled without an uncaught exception: transport
failures and JSON-decode failures are always handled; a decoded payload
must make it through `_parse_llm_response`. -/
def parsesOk (docId : String) (rep : OracleReply) : Bool :=
  match rep with
  | .failure => true
  | .notJson _ => true
  | .payload d => !(isError (parse_llm_response docId d))

/-- The error record one window contributes (`none` when the reply is a
decoded payload). -/
def errOfReply (pr : String) (rep : OracleReply) : Option ErrorRec :=
  match rep with
  | .failure => some { pages := pr, message := "LLM call failed" }
  | .notJson snip => some { pages := pr, message := "JSON decode error: " ++ snip }
  | .payload _ => none

/-- The parsed contribution of one window (`none` for a handled
failure). -/
def okOfReply (docId : String) (rep : OracleReply) :
    Option (List Entity × List Relationship) :=
  match rep with
  | .payload d =>
    match parse_llm_response docId d with
    | .ok p => some p
    | .error _ => none
  | _ => none

/-- One window is clean when its page slice is nonempty (so the range tag
exists) and its reply is handled without an uncaught exception. -/
def windowClean (replyFor : String → OracleReply) (docId : String)
    (pages : List Page) (w : Nat × Nat) : Bool :=
  match window_range (windowSlice pages w) with
  | none => false
  | some pr => parsesOk docId (replyFor pr)

/-- The error list a window sequence contributes: one record per failing
window, tagged with that window's page range, in window order. -/
def windowErrs (replyFor : String → OracleReply) (pages : List Page)
    (ws : List (Nat × Nat)) : List ErrorRec :=
  ws.filterMap (fun w =>
    match window_range (windowSlice pages w) with
    | none => none
    | some pr => errOfReply pr (replyFor pr))

/-- The parsed contributions of the succeeding windows, in window
order. -/
def windowOks (replyFor : String → OracleReply) (docId : String)
    (pages : List Page) (ws : List (Nat × Nat)) :
    List (List Entity × List Relationship) :=
  ws.filterMap (fun w =>
    match window_range (windowSlice pages w) with
    | none => none
    | some pr => okOfReply docId (replyFor pr))

/-! ## Derived definitions: invariants, replay folds and the amended
sanitisation rule -/

/-- The well-formedness invariant every reachable resolver state enjoys:
registry keys are pairwise distinct, every registry entry carries its own
key as `id`, and every name-index binding points at a registered
canonical entity of the bucket's type. -/
def Inv (st : EntityResolver) : Prop :=
  (keysOf st.registry).Nodup ∧
  (∀ p ∈ st.registry, p.2.id = p.1) ∧
  (∀ q ∈ st.name_index, ∀ p ∈ q.2,
    (dget? st.registry p.1).map ResolvedEntity.type = some q.1)

instance (st : EntityResolver) : Decidable (Inv st) := by
  unfold Inv
  infer_instance

/-- The canonical id the alias map of one `resolve` call records for a raw
id `r`: the canonical id assigned to the last entity of the batch whose id
is `r` (each loop iteration overwrites `alias_map[raw_id]`). -/
def lastCanon (score : String → String → Nat) (st : EntityResolver)
    (b : List RawEntity) (r : String) : Option String :=
  match b with
  | [] => none
  | e :: rest =>
    match lastCanon score (resolveStep score st e) rest r with
    | some c => some c
    | none => if e.id = r then some (assignedCanonical score st e) else none

/-- Folding the merge branch of `resolve` over a list of raw entities that
all map to one canonical entry. -/
def mergeFold (ent : ResolvedEntity) (es : List RawEntity) : ResolvedEntity :=
  es.foldl mergeEntity ent

/-- The concatenated property updates of a list of raw entities, in merge
order. -/
def flatProps (es : List RawEntity) : List (String × JVal) :=
  (es.map (fun e => e.properties)).flatten

/-- The auxiliary invariant that every registered entity's property dict
has pairwise-distinct keys (Python dicts cannot hold duplicate keys). -/
def InvP (st : EntityResolver) : Prop :=
  ∀ p ∈ st.registry, (keysOf p.2.properties).Nodup

instance (st : EntityResolver) : Decidable (InvP st) := by
  unfold InvP
  infer_instance

/-- The one-level flattening rule of `_clean_props` for one sub-entry of
a nested mapping: scalar sub-values become `parentKey_childKey` bindings,
`None`/mapping/list sub-values are dropped. -/
def flattenSub (k : String) (skv : String × JVal) : Option (String × JVal) :=
  match skv.2 with
  | .null => none
  | .obj _ => none
  | .arr _ => none
  | w => some (k ++ "_" ++ skv.1, w)

/-- The per-entry sanitisation rule `_clean_props` implements, written as
the specification text must be amended: `None` dropped; one level of
nested mapping flattened through `flattenSub`; a list whose elements are
all primitive passes through unchanged even when the element types are
mixed; a list containing any non-primitive element is serialised with
`json.dumps` to a single string property; scalars pass through. -/
def cleanEntrySpec (k : String) (v : JVal) : List (String × JVal) :=
  match v with
  | .null => []
  | .obj sub => sub.toList.filterMap (flattenSub k)
  | .arr xs =>
    if xs.toList.all isPrimitive then [(k, .arr xs)]
    else [(k, .str (json_dumps (.arr xs)))]
  | w => [(k, w)]

/-! ## Concrete scenario data used by witnesses and counterexamples -/

/-- A Company entity with id `a` named "Infosys". -/
def eInfosysA : RawEntity :=
  { id := "a", type := "Company", properties := [("name", .str "Infosys")], source := [] }

/-- A Company entity with id `b` named "Infosys". -/
def eInfosysB : RawEntity :=
  { id := "b", type := "Company", properties := [("name", .str "Infosys")], source := [] }

/-- A Company entity with the same id `b` but the unrelated name "Zzz". -/
def eZzzB : RawEntity :=
  { id := "b", type := "Company", properties := [("name", .str "Zzz")], source := [] }

/-- A Company entity with id `x` named "Infosys". -/
def eXCo : RawEntity :=
  { id := "x", type := "Company", properties := [("name", .str "Infosys")], source := [] }

/-- A Person entity with the same id `x` and the same name "Infosys". -/
def eXPe : RawEntity :=
  { id := "x", type := "Person", properties := [("name", .str "Infosys")], source := [] }

/-- A Company entity with id `c` named "Infosys". -/
def eInfosysC : RawEntity :=
  { id := "c", type := "Company", properties := [("name", .str "Infosys")], source := [] }

/-- A Company entity with id `a2` named "Infosys". -/
def eInfosysA2 : RawEntity :=
  { id := "a2", type := "Company", properties := [("name", .str "Infosys")], source := [] }

/-- A raw relationship `(a, REPORTS, b)`. -/
def rrA : RawRelationship :=
  { source_id := "a", target_id := "b", type := "REPORTS", properties := [], source := [] }

/-- A raw relationship `(a2, REPORTS, b)`. -/
def rrA2 : RawRelationship :=
  { source_id := "a2", target_id := "b", type := "REPORTS", properties := [], source := [] }

/-- The resolver state after registering `eInfosysA` from scratch. -/
def stOne : EntityResolver := resolveStep sampleScore (initResolver 88) eInfosysA

/-- A resolved `Company` node used by the writer scenarios. -/
def wEntA : ResolvedEntity :=
  { id := "a", type := "Company", properties := [("name", .str "Acme")],
    sources := [[("document_id", .str "doc1")]] }

/-- A resolved `Metric` node used by the writer scenarios. -/
def wEntB : ResolvedEntity :=
  { id := "b", type := "Metric", properties := [("name", .str "Revenue")],
    sources := [[("document_id", .str "doc1")]] }

/-- A `REPORTS` relationship carrying `filing_year = 2022`. -/
def rFY22 : ResolvedRelationship :=
  { source_id := "a", target_id := "b", type := "REPORTS",
    properties := [("filing_year", .int 2022)],
    sources := [[("document_id", .str "doc1")]] }

/-- The same `(a, REPORTS, b)` relationship with `filing_year = 2023`. -/
def rFY23 : ResolvedRelationship :=
  { source_id := "a", target_id := "b", type := "REPORTS",
    properties := [("filing_year", .int 2023)],
    sources := [[("document_id", .str "doc2")]] }

/-- The store after writing the two endpoint nodes. -/
def wdb0 : GraphDB := write_entities emptyDB [wEntA, wEntB]

/-- A Company entity with duplicate raw id `b`, named "Infosys", carrying
an extra property. -/
def eInfosysBX : RawEntity :=
  { id := "b", type := "Company",
    properties := [("name", .str "Infosys"), ("extra", .int 1)], source := [] }

/-- A batch that mentions the raw id `b` twice with different names. -/
def dupBatch : List RawEntity := [eInfosysA, eInfosysBX, eZzzB]

/-! ## Lemmas about the dictionary model -/

section DictLemmas

variable {α β : Type} [DecidableEq α]

theorem dget?_nil (k : α) : dget? ([] : List (α × β)) k = none := rfl

theorem dget?_cons (p : α × β) (m : List (α × β)) (k : α) :
    dget? (p :: m) k = if p.1 = k then some p.2 else dget? m k := by
  by_cases h : p.1 = k <;> simp [dget?, List.find?_cons, h]

theorem dset_nil (k : α) (v : β) : dset ([] : List (α × β)) k v = [(k, v)] := rfl

theorem dset_cons (p : α × β) (m : List (α × β)) (k : α) (v : β) :
    dset (p :: m) k v = if p.1 = k then (k, v) :: m else p :: dset m k v := rfl

omit [DecidableEq α] in
theorem keysOf_nil : keysOf ([] : List (α × β)) = [] := rfl

omit [DecidableEq α] in
theorem keysOf_cons (p : α × β) (m : List (α × β)) :
    keysOf (p :: m) = p.1 :: keysOf m := rfl

theorem dupd_nil (m : List (α × β)) : dupd m [] = m := rfl

theorem dupd_cons (m : List (α × β)) (p : α × β) (u : List (α × β)) :
    dupd m (p :: u) = dupd (dset m p.1 p.2) u := rfl

theorem mem_keysOf_iff (m : List (α × β)) (k : α) :
    k ∈ keysOf m ↔ (dget? m k).isSome = true := by
  induction m with
  | nil => simp [keysOf_nil, dget?_nil]
  | cons p m ih =>
    rw [keysOf_cons, dget?_cons]
    by_cases h : p.1 = k
    · simp [h]
    · have h2 : ¬ k = p.1 := fun hc => h hc.symm
      simp [h, h2, ih]

theorem dget?_eq_none_of_not_mem {m : List (α × β)} {k : α} (h : k ∉ keysOf m) :
    dget? m k = none := by
  cases hx : dget? m k with
  | none => rfl
  | some v => exact absurd ((mem_keysOf_iff m k).mpr (by simp [hx])) h

theorem dget?_dset_self (m : List (α × β)) (k : α) (v : β) :
    dget? (dset m k v) k = some v := by
  induction m with
  | nil => simp [dset_nil, dget?_cons]
  | cons p m ih =>
    rw [dset_cons]
    by_cases h : p.1 = k
    · simp [h, dget?_cons]
    · simp [h, dget?_cons, ih]

theorem dget?_dset_other (m : List (α × β)) {k k' : α} (v : β) (h : k' ≠ k) :
    dget? (dset m k v) k' = dget? m k' := by
  have h2 : ¬ k = k' := fun hc => h hc.symm
  induction m with
  | nil => simp [dset_nil, dget?_cons, dget?_nil, h2]
  | cons p m ih =>
    rw [dset_cons]
    by_cases hp : p.1 = k
    · rw [if_pos hp, dget?_cons, dget?_cons, if_neg h2, if_neg (hp ▸ h2)]
    · rw [if_neg hp, dget?_cons, dget?_cons, ih]

theorem keysOf_dset_of_mem {m : List (α × β)} {k : α} (v : β) (h : k ∈ keysOf m) :
    keysOf (dset m k v) = keysOf m := by
  induction m with
  | nil => simp [keysOf_nil] at h
  | cons p m ih =>
    rw [keysOf_cons] at h
    rw [dset_cons]
    by_cases hp : p.1 = k
    · rw [if_pos hp, keysOf_cons, keysOf_cons, hp]
    · have hm : k ∈ keysOf m := by
        rcases List.mem_cons.mp h with h1 | h1
        · exact absurd h1.symm hp
        · exact h1
      rw [if_neg hp, keysOf_cons, keysOf_cons, ih hm]

theorem keysOf_dset_of_not_mem {m : List (α × β)} {k : α} (v : β) (h : k ∉ keysOf m) :
    keysOf (dset m k v) = keysOf m ++ [k] := by
  induction m with
  | nil => simp [dset_nil, keysOf_cons, keysOf_nil]
  | cons p m ih =>
    rw [keysOf_cons] at h
    have hp : ¬ p.1 = k := fun hc => h (by simp [hc])
    have hm : k ∉ keysOf m := fun hc => h (by simp [hc])
    rw [dset_cons, if_neg hp, keysOf_cons, keysOf_cons, ih hm, List.cons_append]

theorem nodup_keysOf_dset {m : List (α × β)} {k : α} {v : β}
    (h : (keysOf m).Nodup) : (keysOf (dset m k v)).Nodup := by
  by_cases hk : k ∈ keysOf m
  · rw [keysOf_dset_of_mem v hk]; exact h
  · rw [keysOf_dset_of_not_mem v hk]
    exact List.Nodup.append h (by simp)
      (by intro x hx hx2; simp at hx2; subst hx2; exact hk hx)

theorem updLast_nil (k : α) : updLast ([] : List (α × β)) k = none := rfl

theorem updLast_cons (p : α × β) (u : List (α × β)) (k : α) :
    updLast (p :: u) k =
      match updLast u k with
      | some v => some v
      | none => if p.1 = k then some p.2 else none := rfl

theorem updLast_append (u v : List (α × β)) (k : α) :
    updLast (u ++ v) k =
      match updLast v k with
      | some w => some w
      | none => updLast u k := by
  induction u with
  | nil => cases h : updLast v k <;> simp [updLast_nil, h]
  | cons p u ih =>
    rw [List.cons_append, updLast_cons, ih, updLast_cons]
    cases updLast v k <;> cases updLast u k <;> simp

theorem updLast_isSome_iff_mem (u : List (α × β)) (k : α) :
    (updLast u k).isSome = true ↔ k ∈ keysOf u := by
  induction u with
  | nil => simp [updLast_nil, keysOf_nil]
  | cons p u ih =>
    rw [updLast_cons, keysOf_cons]
    cases hu : updLast u k with
    | some v =>
      have hm : k ∈ keysOf u := ih.mp (by simp [hu])
      simp [hm]
    | none =>
      have hm : k ∉ keysOf u := fun hc => by
        have hs := ih.mpr hc
        rw [hu] at hs
        simp at hs
      by_cases h : p.1 = k
      · simp [h]
      · have h2 : ¬ k = p.1 := fun hc => h hc.symm
        simp [h, h2, hm]

theorem updLast_eq_none_of_not_mem {u : List (α × β)} {k : α} (h : k ∉ keysOf u) :
    updLast u k = none := by
  cases hx : updLast u k with
  | none => rfl
  | some v => exact absurd ((updLast_isSome_iff_mem u k).mp (by simp [hx])) h

theorem dget?_dupd (m u : List (α × β)) (k : α) :
    dget? (dupd m u) k =
      match updLast u k with
      | some v => some v
      | none => dget? m k := by
  induction u generalizing m with
  | nil => rw [dupd_nil, updLast_nil]
  | cons p u ih =>
    rw [dupd_cons, ih, updLast_cons]
    cases hu : updLast u k with
    | some v => simp
    | none =>
      by_cases h : p.1 = k
      · subst h; simp [dget?_dset_self]
      · simp [h, dget?_dset_other _ _ (fun hc => h hc.symm)]

theorem dupd_append (m u v : List (α × β)) :
    dupd m (u ++ v) = dupd (dupd m u) v := by
  simp [dupd, List.foldl_append]

theorem keysOf_dupd_of_subset {m u : List (α × β)}
    (h : ∀ k ∈ keysOf u, k ∈ keysOf m) : keysOf (dupd m u) = keysOf m := by
  induction u generalizing m with
  | nil => rw [dupd_nil]
  | cons p u ih =>
    have ha : p.1 ∈ keysOf m := h p.1 (by rw [keysOf_cons]; exact List.mem_cons_self _ _)
    have hk : keysOf (dset m p.1 p.2) = keysOf m := keysOf_dset_of_mem p.2 ha
    rw [dupd_cons, ih, hk]
    intro k hku
    rw [hk]
    exact h k (by rw [keysOf_cons]; exact List.mem_cons_of_mem _ hku)

theorem nodup_keysOf_dupd {m : List (α × β)} (u : List (α × β))
    (h : (keysOf m).Nodup) : (keysOf (dupd m u)).Nodup := by
  induction u generalizing m with
  | nil => rw [dupd_nil]; exact h
  | cons p u ih => rw [dupd_cons]; exact ih (nodup_keysOf_dset h)

theorem mem_keysOf_dset_self (m : List (α × β)) (k : α) (v : β) :
    k ∈ keysOf (dset m k v) := by
  by_cases hk : k ∈ keysOf m
  · rw [keysOf_dset_of_mem v hk]; exact hk
  · rw [keysOf_dset_of_not_mem v hk]; simp

theorem mem_keysOf_dset_of_mem {m : List (α × β)} {k' : α} (k : α) (v : β)
    (h : k' ∈ keysOf m) : k' ∈ keysOf (dset m k v) := by
  by_cases hk : k ∈ keysOf m
  · rw [keysOf_dset_of_mem v hk]; exact h
  · rw [keysOf_dset_of_not_mem v hk]; exact List.mem_append_left _ h

theorem mem_keysOf_dupd_of_mem_keys {m u : List (α × β)} {k : α}
    (h : k ∈ keysOf m) : k ∈ keysOf (dupd m u) := by
  induction u generalizing m with
  | nil => rw [dupd_nil]; exact h
  | cons p u ih => rw [dupd_cons]; exact ih (mem_keysOf_dset_of_mem _ _ h)

theorem mem_keysOf_dupd_of_mem_upd {m u : List (α × β)} {k : α}
    (h : k ∈ keysOf u) : k ∈ keysOf (dupd m u) := by
  induction u generalizing m with
  | nil => simp [keysOf_nil] at h
  | cons p u ih =>
    rw [keysOf_cons] at h
    rw [dupd_cons]
    rcases List.mem_cons.mp h with h1 | h1
    · subst h1; exact mem_keysOf_dupd_of_mem_keys (mem_keysOf_dset_self _ _ _)
    · exact ih h1

theorem dict_ext {m1 m2 : List (α × β)} (hnd : (keysOf m1).Nodup)
    (hk : keysOf m1 = keysOf m2) (hv : ∀ k, dget? m1 k = dget? m2 k) : m1 = m2 := by
  induction m1 generalizing m2 with
  | nil =>
    cases m2 with
    | nil => rfl
    | cons q m2 => rw [keysOf_nil, keysOf_cons] at hk; exact absurd hk (by simp)
  | cons p m1 ih =>
    cases m2 with
    | nil => rw [keysOf_nil, keysOf_cons] at hk; exact absurd hk (by simp)
    | cons q m2 =>
      rw [keysOf_cons, keysOf_cons] at hk
      injection hk with hk1 hk2
      rw [keysOf_cons] at hnd
      obtain ⟨hp1, hnd1⟩ := List.nodup_cons.mp hnd
      have hv1 : p.2 = q.2 := by
        have hh := hv p.1
        rw [dget?_cons, dget?_cons, if_pos rfl, if_pos hk1.symm] at hh
        exact Option.some.inj hh
      have htail : m1 = m2 := by
        apply ih hnd1 hk2
        intro k
        by_cases hkp : k = p.1
        · subst hkp
          rw [dget?_eq_none_of_not_mem hp1,
            dget?_eq_none_of_not_mem (by rw [← hk2]; exact hp1)]
        · have hh := hv k
          rw [dget?_cons, dget?_cons, if_neg (fun hc => hkp hc.symm),
            if_neg (fun hc => hkp ((hk1.trans hc).symm))] at hh
          exact hh
      have hpq : p = q := Prod.ext hk1 hv1
      rw [hpq, htail]

theorem dupd_eq_self {m u : List (α × β)} (hnd : (keysOf m).Nodup)
    (h : ∀ k v, updLast u k = some v → dget? m k = some v) : dupd m u = m := by
  have hsub : ∀ k ∈ keysOf u, k ∈ keysOf m := by
    intro k hk
    obtain ⟨v, hv⟩ := Option.isSome_iff_exists.mp ((updLast_isSome_iff_mem u k).mpr hk)
    exact (mem_keysOf_iff m k).mpr (by simp [h k v hv])
  apply dict_ext (nodup_keysOf_dupd u hnd) (keysOf_dupd_of_subset hsub)
  intro k
  rw [dget?_dupd]
  cases hu : updLast u k with
  | some v => exact (h k v hu).symm
  | none => rfl

theorem updLast_eq_dget? {u : List (α × β)} (hnd : (keysOf u).Nodup) (k : α) :
    updLast u k = dget? u k := by
  induction u with
  | nil => rfl
  | cons p u ih =>
    rw [updLast_cons, dget?_cons]
    rw [keysOf_cons] at hnd
    obtain ⟨hp1, hnd1⟩ := List.nodup_cons.mp hnd
    cases hu : updLast u k with
    | some v =>
      have hk : k ∈ keysOf u := (updLast_isSome_iff_mem u k).mp (by simp [hu])
      have hne : ¬ p.1 = k := fun hc => hp1 (hc ▸ hk)
      simp [hu, hne, ← ih hnd1]
    | none =>
      by_cases h : p.1 = k
      · simp [hu, h]
      · simp [hu, h]
        rw [← ih hnd1, hu]

theorem dset_eq_append_of_not_mem {m : List (α × β)} {k : α} (v : β)
    (h : k ∉ keysOf m) : dset m k v = m ++ [(k, v)] := by
  induction m with
  | nil => rfl
  | cons p m ih =>
    rw [keysOf_cons] at h
    have hp : ¬ p.1 = k := fun hc => h (by simp [hc])
    have hm : k ∉ keysOf m := fun hc => h (by simp [hc])
    rw [dset_cons, if_neg hp, ih hm, List.cons_append]

theorem mem_dset {m : List (α × β)} {k : α} {v : β} {q : α × β}
    (h : q ∈ dset m k v) : q = (k, v) ∨ q ∈ m := by
  induction m with
  | nil => rw [dset_nil] at h; simp at h; exact Or.inl h
  | cons p m ih =>
    rw [dset_cons] at h
    by_cases hp : p.1 = k
    · rw [if_pos hp] at h
      rcases List.mem_cons.mp h with h1 | h1
      · exact Or.inl h1
      · exact Or.inr (List.mem_cons_of_mem _ h1)
    · rw [if_neg hp] at h
      rcases List.mem_cons.mp h with h1 | h1
      · exact Or.inr (h1 ▸ List.mem_cons_self _ _)
      · rcases ih h1 with h2 | h2
        · exact Or.inl h2
        · exact Or.inr (List.mem_cons_of_mem _ h2)

theorem dget?_append (m1 m2 : List (α × β)) (k : α) :
    dget? (m1 ++ m2) k =
      match dget? m1 k with
      | some v => some v
      | none => dget? m2 k := by
  induction m1 with
  | nil => rw [List.nil_append, dget?_nil]
  | cons p m1 ih =>
    rw [List.cons_append, dget?_cons, dget?_cons]
    by_cases h : p.1 = k
    · simp [h]
    · simp [h, ih]

theorem keysOf_map_entry (f : β → β) (m : List (α × β)) (c : α) :
    keysOf (m.map (fun p => if p.1 = c then (p.1, f p.2) else p)) = keysOf m := by
  induction m with
  | nil => rfl
  | cons p m ih =>
    rw [List.map_cons, keysOf_cons, keysOf_cons, ih]
    by_cases h : p.1 = c <;> simp [h]

theorem dget?_map_entry (f : β → β) (m : List (α × β)) (c k : α) :
    dget? (m.map (fun p => if p.1 = c then (p.1, f p.2) else p)) k =
      if k = c then (dget? m k).map f else dget? m k := by
  induction m with
  | nil => simp [dget?_nil]
  | cons p m ih =>
    simp only [List.map_cons, dget?_cons]
    by_cases hp : p.1 = c
    · by_cases hk : p.1 = k
      · have hkc : k = c := by rw [← hk, hp]
        simp [hp, hk, hkc]
      · have h1 : ¬ c = k := by rw [← hp]; exact hk
        have h2 : ¬ k = c := fun hc => h1 hc.symm
        simp [hp, hk, h1, h2, ih]
    · by_cases hk : p.1 = k
      · have h2 : ¬ k = c := by rw [← hk]; exact hp
        simp [hp, hk, h2]
      · simp [hp, hk, ih]

theorem mem_keysOf_dset_iff (m : List (α × β)) (k : α) (v : β) (c : α) :
    c ∈ keysOf (dset m k v) ↔ c = k ∨ c ∈ keysOf m := by
  by_cases h : k ∈ keysOf m
  · rw [keysOf_dset_of_mem v h]
    constructor
    · exact fun h1 => Or.inr h1
    · rintro (rfl | h1)
      · exact h
      · exact h1
  · rw [keysOf_dset_of_not_mem v h]
    simp [List.mem_append, or_comm]

end DictLemmas

end GammaPoc

namespace GammaPoc

/-! ## Lemmas about the entity resolver -/

section ResolverLemmas

variable (score : String → String → Nat)

theorem find_canonical_of_mem {st : EntityResolver} {r : String} (etype nm : String)
    (h : r ∈ keysOf st.registry) :
    find_canonical score st r etype nm = some r := by
  have hs : (st.registry.find? (fun p => p.1 = r)).isSome = true := by
    have := (mem_keysOf_iff st.registry r).mp h
    simpa [dget?] using this
  simp [find_canonical, hs]

theorem find_canonical_of_not_mem {st : EntityResolver} {r : String} (etype nm : String)
    (h : r ∉ keysOf st.registry) :
    find_canonical score st r etype nm =
      ((bucketOf st etype).find? (fuzzyPred score st nm)).map (fun p => p.1) := by
  have hs : ¬ (st.registry.find? (fun p => p.1 = r)).isSome = true := by
    intro hc
    exact h ((mem_keysOf_iff st.registry r).mpr (by simpa [dget?] using hc))
  rw [find_canonical, if_neg hs]
  cases (bucketOf st etype).find? (fuzzyPred score st nm) <;> rfl

theorem mem_of_find_canonical_fuzzy {st : EntityResolver} {r etype nm c : String}
    (hr : r ∉ keysOf st.registry)
    (h : find_canonical score st r etype nm = some c) :
    ∃ p ∈ bucketOf st etype, p.1 = c ∧ fuzzyPred score st nm p = true := by
  rw [find_canonical_of_not_mem score etype nm hr] at h
  cases hf : (bucketOf st etype).find? (fuzzyPred score st nm) with
  | none => rw [hf] at h; simp at h
  | some p =>
    rw [hf] at h
    simp at h
    exact ⟨p, List.mem_of_find?_eq_some hf, h, List.find?_some hf⟩

theorem not_mem_of_find_canonical_none {st : EntityResolver} {r etype nm : String}
    (h : find_canonical score st r etype nm = none) : r ∉ keysOf st.registry := by
  intro hc
  rw [find_canonical_of_mem score etype nm hc] at h
  exact Option.noConfusion h

theorem resolveStep_eq_register {st : EntityResolver} {e : RawEntity}
    (h : find_canonical score st e.id e.type (entityName e) = none) :
    resolveStep score st e = registerNew st e := by
  rw [resolveStep, h]

theorem resolveStep_eq_merge {st : EntityResolver} {e : RawEntity} {c : String}
    (h : find_canonical score st e.id e.type (entityName e) = some c) :
    resolveStep score st e = mergeInto st c e := by
  rw [resolveStep, h]

theorem assignedCanonical_eq_of_find {st : EntityResolver} {e : RawEntity} {c : String}
    (h : find_canonical score st e.id e.type (entityName e) = some c) :
    assignedCanonical score st e = c := by
  rw [assignedCanonical, h]

theorem assignedCanonical_eq_of_none {st : EntityResolver} {e : RawEntity}
    (h : find_canonical score st e.id e.type (entityName e) = none) :
    assignedCanonical score st e = e.id := by
  rw [assignedCanonical, h]

/-- `registerNew` appends the fresh entity to the registry (the incoming
id is not yet a canonical id whenever the find missed). -/
theorem registerNew_registry_eq {st : EntityResolver} {e : RawEntity}
    (h : e.id ∉ keysOf st.registry) :
    (registerNew st e).registry = st.registry ++ [(e.id, regEntity e)] := by
  rw [registerNew]
  exact dset_eq_append_of_not_mem _ h

theorem registerNew_threshold (st : EntityResolver) (e : RawEntity) :
    (registerNew st e).threshold = st.threshold := rfl

theorem mergeInto_threshold (st : EntityResolver) (c : String) (e : RawEntity) :
    (mergeInto st c e).threshold = st.threshold := rfl

theorem mergeInto_name_index (st : EntityResolver) (c : String) (e : RawEntity) :
    (mergeInto st c e).name_index = st.name_index := rfl

theorem keysOf_mergeInto (st : EntityResolver) (c : String) (e : RawEntity) :
    keysOf (mergeInto st c e).registry = keysOf st.registry :=
  keysOf_map_entry (fun ent => mergeEntity ent e) st.registry c

theorem dget?_mergeInto (st : EntityResolver) (c : String) (e : RawEntity) (k : String) :
    dget? (mergeInto st c e).registry k =
      if k = c then (dget? st.registry k).map (fun ent => mergeEntity ent e)
      else dget? st.registry k :=
  dget?_map_entry (fun ent => mergeEntity ent e) st.registry c k

theorem mergeEntity_id (ent : ResolvedEntity) (e : RawEntity) :
    (mergeEntity ent e).id = ent.id := rfl

theorem mergeEntity_type (ent : ResolvedEntity) (e : RawEntity) :
    (mergeEntity ent e).type = ent.type := rfl

theorem resolveStep_threshold (st : EntityResolver) (e : RawEntity) :
    (resolveStep score st e).threshold = st.threshold := by
  rw [resolveStep]
  cases find_canonical score st e.id e.type (entityName e) <;> rfl

theorem stProcess_nil (st : EntityResolver) : stProcess score st [] = st := rfl

theorem stProcess_cons (st : EntityResolver) (e : RawEntity) (l : List RawEntity) :
    stProcess score st (e :: l) = stProcess score (resolveStep score st e) l := rfl

theorem stProcess_append (st : EntityResolver) (l1 l2 : List RawEntity) :
    stProcess score st (l1 ++ l2) = stProcess score (stProcess score st l1) l2 := by
  simp [stProcess, List.foldl_append]

theorem stProcess_threshold (st : EntityResolver) (l : List RawEntity) :
    (stProcess score st l).threshold = st.threshold := by
  induction l generalizing st with
  | nil => rfl
  | cons e l ih => rw [stProcess_cons, ih, resolveStep_threshold]

/-- The registry key list only ever grows, by appending at the end. -/
theorem keysOf_resolveStep (st : EntityResolver) (e : RawEntity) :
    ∃ tail, keysOf (resolveStep score st e).registry = keysOf st.registry ++ tail := by
  cases hf : find_canonical score st e.id e.type (entityName e) with
  | none =>
    rw [resolveStep_eq_register score hf,
      registerNew_registry_eq (not_mem_of_find_canonical_none score hf)]
    exact ⟨[e.id], by simp [keysOf]⟩
  | some c =>
    rw [resolveStep_eq_merge score hf, keysOf_mergeInto]
    exact ⟨[], by simp⟩

theorem keysOf_stProcess (st : EntityResolver) (l : List RawEntity) :
    ∃ tail, keysOf (stProcess score st l).registry = keysOf st.registry ++ tail := by
  induction l generalizing st with
  | nil => exact ⟨[], by simp [stProcess_nil]⟩
  | cons e l ih =>
    rw [stProcess_cons]
    obtain ⟨t1, h1⟩ := keysOf_resolveStep score st e
    obtain ⟨t2, h2⟩ := ih (resolveStep score st e)
    exact ⟨t1 ++ t2, by rw [h2, h1, List.append_assoc]⟩

theorem mem_keysOf_resolveStep {st : EntityResolver} {e : RawEntity} {c : String}
    (h : c ∈ keysOf st.registry) : c ∈ keysOf (resolveStep score st e).registry := by
  obtain ⟨t, ht⟩ := keysOf_resolveStep score st e
  rw [ht]
  exact List.mem_append_left _ h

theorem mem_keysOf_stProcess {st : EntityResolver} {c : String} (l : List RawEntity)
    (h : c ∈ keysOf st.registry) : c ∈ keysOf (stProcess score st l).registry := by
  obtain ⟨t, ht⟩ := keysOf_stProcess score st l
  rw [ht]
  exact List.mem_append_left _ h

/-- A key that is absent can only enter the registry as the id of a
processed entity. -/
theorem not_mem_keysOf_resolveStep {st : EntityResolver} {e : RawEntity} {r : String}
    (hr : r ∉ keysOf st.registry) (hne : e.id ≠ r) :
    r ∉ keysOf (resolveStep score st e).registry := by
  cases hf : find_canonical score st e.id e.type (entityName e) with
  | none =>
    rw [resolveStep_eq_register score hf,
      registerNew_registry_eq (not_mem_of_find_canonical_none score hf)]
    intro hc
    have hm : r ∈ keysOf st.registry ++ [e.id] := by
      simpa [keysOf] using hc
    rcases List.mem_append.mp hm with h1 | h1
    · exact hr h1
    · exact hne (List.mem_singleton.mp h1).symm
  | some c =>
    rw [resolveStep_eq_merge score hf, keysOf_mergeInto]
    exact hr

theorem not_mem_keysOf_stProcess {st : EntityResolver} {r : String} {l : List RawEntity}
    (hr : r ∉ keysOf st.registry) (hne : ∀ e ∈ l, e.id ≠ r) :
    r ∉ keysOf (stProcess score st l).registry := by
  induction l generalizing st with
  | nil => exact hr
  | cons e l ih =>
    rw [stProcess_cons]
    exact ih (not_mem_keysOf_resolveStep score hr (hne e (List.mem_cons_self _ _)))
      (fun e' he' => hne e' (List.mem_cons_of_mem _ he'))

theorem Inv_init (th : Nat) : Inv (initResolver th) := by
  refine ⟨?_, ?_, ?_⟩ <;> simp [initResolver, keysOf]

theorem bucket_typed {st : EntityResolver} (hInv : Inv st) {T : String}
    {p : String × String} (hp : p ∈ bucketOf st T) :
    (dget? st.registry p.1).map ResolvedEntity.type = some T := by
  unfold bucketOf at hp
  cases hq : dget? st.name_index T with
  | none => rw [hq] at hp; simp at hp
  | some b =>
    rw [hq] at hp
    simp only [Option.getD_some] at hp
    unfold dget? at hq
    cases hfind : st.name_index.find? (fun q => q.1 = T) with
    | none => rw [hfind] at hq; simp at hq
    | some q =>
      rw [hfind] at hq
      simp only [Option.map_some'] at hq
      have hqmem := List.mem_of_find?_eq_some hfind
      have hqt : q.1 = T := by simpa using List.find?_some hfind
      have := hInv.2.2 q hqmem p (by rw [Option.some.inj hq]; exact hp)
      rwa [hqt] at this

theorem mem_registry_of_bucket {st : EntityResolver} (hInv : Inv st) {T : String}
    {p : String × String} (hp : p ∈ bucketOf st T) :
    p.1 ∈ keysOf st.registry := by
  have h := bucket_typed hInv hp
  apply (mem_keysOf_iff _ _).mpr
  cases hd : dget? st.registry p.1 with
  | none => rw [hd] at h; simp at h
  | some ent => simp

theorem bucketOf_mergeInto (st : EntityResolver) (c : String) (e : RawEntity)
    (T : String) : bucketOf (mergeInto st c e) T = bucketOf st T := rfl

theorem bucketOf_registerNew_self {st : EntityResolver} {e : RawEntity}
    (h : e.id ∉ keysOf (bucketOf st e.type)) :
    bucketOf (registerNew st e) e.type =
      bucketOf st e.type ++ [(e.id, entityName e)] := by
  show (dget? (dset st.name_index e.type
      (dset (bucketOf st e.type) e.id (entityName e))) e.type).getD [] = _
  rw [dget?_dset_self, Option.getD_some]
  exact dset_eq_append_of_not_mem _ h

theorem bucketOf_registerNew_other {st : EntityResolver} {e : RawEntity} {T : String}
    (h : T ≠ e.type) : bucketOf (registerNew st e) T = bucketOf st T := by
  show (dget? (dset st.name_index e.type
      (dset (bucketOf st e.type) e.id (entityName e))) T).getD [] = _
  rw [dget?_dset_other _ _ h]
  rfl

theorem not_mem_bucket_of_not_registered {st : EntityResolver} (hInv : Inv st)
    {r T : String} (hr : r ∉ keysOf st.registry) :
    r ∉ keysOf (bucketOf st T) := by
  intro hc
  obtain ⟨p, hp, hp1⟩ := List.mem_map.mp hc
  exact hr (hp1 ▸ mem_registry_of_bucket hInv hp)

/-- Along one resolution step, every name bucket either stays put or is
extended at its end. -/
theorem bucketOf_resolveStep {st : EntityResolver} (hInv : Inv st) (e : RawEntity)
    (T : String) :
    ∃ tail, bucketOf (resolveStep score st e) T = bucketOf st T ++ tail := by
  cases hf : find_canonical score st e.id e.type (entityName e) with
  | some c =>
    rw [resolveStep_eq_merge score hf, bucketOf_mergeInto]
    exact ⟨[], by simp⟩
  | none =>
    rw [resolveStep_eq_register score hf]
    by_cases hT : T = e.type
    · subst hT
      have hb : e.id ∉ keysOf (bucketOf st e.type) :=
        not_mem_bucket_of_not_registered hInv (not_mem_of_find_canonical_none score hf)
      exact ⟨[(e.id, entityName e)], bucketOf_registerNew_self hb⟩
    · exact ⟨[], by rw [bucketOf_registerNew_other hT, List.append_nil]⟩

theorem Inv_registerNew {st : EntityResolver} {e : RawEntity} (hInv : Inv st)
    (hf : find_canonical score st e.id e.type (entityName e) = none) :
    Inv (registerNew st e) := by
  have hid := not_mem_of_find_canonical_none score hf
  have hreg : (registerNew st e).registry = st.registry ++ [(e.id, regEntity e)] :=
    registerNew_registry_eq hid
  have hkeys : keysOf (registerNew st e).registry = keysOf st.registry ++ [e.id] := by
    rw [hreg]; simp [keysOf]
  have hlift : ∀ k (ent : ResolvedEntity), dget? st.registry k = some ent →
      dget? (registerNew st e).registry k = some ent := by
    intro k ent hk
    rw [hreg, dget?_append, hk]
  have hnew : dget? (registerNew st e).registry e.id = some (regEntity e) := by
    rw [hreg, dget?_append, dget?_eq_none_of_not_mem hid, dget?_cons]
    simp
  refine ⟨?_, ?_, ?_⟩
  · rw [hkeys]
    exact List.Nodup.append hInv.1 (by simp)
      (by intro x hx hx2; simp at hx2; subst hx2; exact hid hx)
  · intro p hp
    rw [hreg] at hp
    rcases List.mem_append.mp hp with h1 | h1
    · exact hInv.2.1 p h1
    · simp only [List.mem_singleton] at h1
      subst h1
      rfl
  · intro q hq p hp
    rcases mem_dset hq with h1 | h1
    · subst h1
      rcases mem_dset hp with h2 | h2
      · subst h2
        rw [hnew]
        rfl
      · have hty := bucket_typed hInv h2
        cases hd : dget? st.registry p.1 with
        | none => rw [hd] at hty; simp at hty
        | some ent =>
          rw [hd] at hty
          rw [hlift p.1 ent hd]
          exact hty
    · have hold := hInv.2.2 q h1 p hp
      cases hd : dget? st.registry p.1 with
      | none => rw [hd] at hold; simp at hold
      | some ent =>
        rw [hd] at hold
        rw [hlift p.1 ent hd]
        exact hold

theorem Inv_mergeInto {st : EntityResolver} (c : String) (e : RawEntity)
    (hInv : Inv st) : Inv (mergeInto st c e) := by
  refine ⟨?_, ?_, ?_⟩
  · rw [keysOf_mergeInto]; exact hInv.1
  · intro p hp
    obtain ⟨p0, hp0, hpe⟩ := List.mem_map.mp hp
    by_cases h : p0.1 = c
    · rw [← hpe, if_pos h]
      exact hInv.2.1 p0 hp0
    · rw [← hpe, if_neg h]
      exact hInv.2.1 p0 hp0
  · intro q hq p hp
    have hold := hInv.2.2 q hq p hp
    rw [dget?_mergeInto]
    by_cases h : p.1 = c
    · rw [if_pos h]
      cases hd : dget? st.registry p.1 with
      | none => rw [hd] at hold; simp at hold
      | some ent =>
        rw [hd] at hold
        simpa [mergeEntity_type] using hold
    · rw [if_neg h]
      exact hold

theorem Inv_resolveStep {st : EntityResolver} (e : RawEntity) (hInv : Inv st) :
    Inv (resolveStep score st e) := by
  cases hf : find_canonical score st e.id e.type (entityName e) with
  | none => rw [resolveStep_eq_register score hf]; exact Inv_registerNew score hInv hf
  | some c => rw [resolveStep_eq_merge score hf]; exact Inv_mergeInto c e hInv

theorem Inv_stProcess {st : EntityResolver} (l : List RawEntity) (hInv : Inv st) :
    Inv (stProcess score st l) := by
  induction l generalizing st with
  | nil => exact hInv
  | cons e l ih => rw [stProcess_cons]; exact ih (Inv_resolveStep score e hInv)

/-- `_find_canonical` answers are stable under later resolution steps,
provided any later occurrence of the same raw id carries the same type
and display name. -/
theorem find_stable_step {st : EntityResolver} {e : RawEntity} {r T N c : String}
    (hInv : Inv st) (he : e.id = r → e.type = T ∧ entityName e = N)
    (h : find_canonical score st r T N = some c) :
    find_canonical score (resolveStep score st e) r T N = some c := by
  by_cases hr : r ∈ keysOf st.registry
  · rw [find_canonical_of_mem score T N hr] at h
    have hc : c = r := (Option.some.inj h).symm
    subst hc
    exact find_canonical_of_mem score T N (mem_keysOf_resolveStep score hr)
  · have hfz := h
    rw [find_canonical_of_not_mem score T N hr] at hfz
    cases hfind : (bucketOf st T).find? (fuzzyPred score st N) with
    | none => rw [hfind] at hfz; simp at hfz
    | some p =>
      rw [hfind] at hfz
      simp only [Option.map_some'] at hfz
      have hr' : r ∉ keysOf (resolveStep score st e).registry := by
        by_cases hee : e.id = r
        · obtain ⟨hT, hN⟩ := he hee
          have hfe : find_canonical score st e.id e.type (entityName e) = some c := by
            rw [hee, hT, hN]; exact h
          rw [resolveStep_eq_merge score hfe, keysOf_mergeInto]
          exact hr
        · exact not_mem_keysOf_resolveStep score hr hee
      obtain ⟨tail, htail⟩ := bucketOf_resolveStep score hInv e T
      have hpred : fuzzyPred score (resolveStep score st e) N = fuzzyPred score st N := by
        funext q
        simp [fuzzyPred, resolveStep_threshold]
      rw [find_canonical_of_not_mem score T N hr', htail, hpred,
        List.find?_append, hfind]
      simp [hfz]

theorem find_stable_list {st : EntityResolver} {l : List RawEntity} {r T N c : String}
    (hInv : Inv st) (he : ∀ e ∈ l, e.id = r → e.type = T ∧ entityName e = N)
    (h : find_canonical score st r T N = some c) :
    find_canonical score (stProcess score st l) r T N = some c := by
  induction l generalizing st with
  | nil => exact h
  | cons e l ih =>
    rw [stProcess_cons]
    exact ih (Inv_resolveStep score e hInv)
      (fun e' he' => he e' (List.mem_cons_of_mem _ he'))
      (find_stable_step score hInv (he e (List.mem_cons_self _ _)) h)

/-- The alias-map accumulator never influences the state component of the
`resolve` loop. -/
theorem foldl_resolveFold_fst (b : List RawEntity) (st : EntityResolver)
    (am : List (String × String)) :
    (b.foldl (resolveFold score) (st, am)).1 = stProcess score st b := by
  induction b generalizing st am with
  | nil => rfl
  | cons e b ih =>
    rw [List.foldl_cons, stProcess_cons]
    exact ih _ _

theorem resolve_fst (st : EntityResolver) (b : List RawEntity) :
    (resolve score st b).1 = stProcess score st b :=
  foldl_resolveFold_fst score b st []

theorem resolve_entities (st : EntityResolver) (b : List RawEntity) :
    (resolve score st b).2.1 = (stProcess score st b).registry.map (fun q => q.2) := by
  show ((b.foldl (resolveFold score) (st, [])).1.registry.map (fun q => q.2)) = _
  rw [foldl_resolveFold_fst]

theorem resolve_alias_aux (b : List RawEntity) (st : EntityResolver)
    (am : List (String × String)) (r : String) :
    dget? ((b.foldl (resolveFold score) (st, am)).2) r =
      match lastCanon score st b r with
      | some c => some c
      | none => dget? am r := by
  induction b generalizing st am with
  | nil => rfl
  | cons e b ih =>
    rw [List.foldl_cons]
    show dget? ((b.foldl (resolveFold score)
        (resolveStep score st e, dset am e.id (assignedCanonical score st e))).2) r = _
    rw [ih]
    cases hl : lastCanon score (resolveStep score st e) b r with
    | some c => simp [lastCanon, hl]
    | none =>
      by_cases hid : e.id = r
      · simp [lastCanon, hl, hid, dget?_dset_self]
      · simp [lastCanon, hl, hid, dget?_dset_other _ _ (fun hc => hid hc.symm)]

theorem resolve_alias (st : EntityResolver) (b : List RawEntity) (r : String) :
    dget? (resolve score st b).2.2 r = lastCanon score st b r := by
  show dget? ((b.foldl (resolveFold score) (st, [])).2) r = _
  rw [resolve_alias_aux]
  cases lastCanon score st b r <;> simp [dget?_nil]

theorem lastCanon_eq_none_iff (st : EntityResolver) (b : List RawEntity) (r : String) :
    lastCanon score st b r = none ↔ ∀ e ∈ b, e.id ≠ r := by
  induction b generalizing st with
  | nil => simp [lastCanon]
  | cons e b ih =>
    rw [lastCanon]
    cases hl : lastCanon score (resolveStep score st e) b r with
    | some c =>
      constructor
      · intro hc; exact Option.noConfusion hc
      · intro hall
        have h0 : lastCanon score (resolveStep score st e) b r = none :=
          (ih (resolveStep score st e)).mpr
            (fun e' he' => hall e' (List.mem_cons_of_mem _ he'))
        rw [hl] at h0
        exact Option.noConfusion h0
    | none =>
      by_cases hid : e.id = r
      · rw [if_pos hid]
        constructor
        · intro hc; exact Option.noConfusion hc
        · intro hall
          exact absurd hid (hall e (List.mem_cons_self _ _))
      · rw [if_neg hid]
        constructor
        · intro _ e' he'
          rcases List.mem_cons.mp he' with h1 | h1
          · rw [h1]; exact hid
          · exact (ih (resolveStep score st e)).mp hl e' h1
        · intro _; rfl

/-- If one call's alias map sent `r` to `c`, the find for `(r, T, N)` at
the post-state answers `c`. -/
theorem find_of_lastCanon {st : EntityResolver} {b : List RawEntity} {r T N c : String}
    (hInv : Inv st) (he : ∀ e ∈ b, e.id = r → e.type = T ∧ entityName e = N)
    (h : lastCanon score st b r = some c) :
    find_canonical score (stProcess score st b) r T N = some c := by
  induction b generalizing st with
  | nil => exact Option.noConfusion h
  | cons e b ih =>
    rw [stProcess_cons]
    rw [lastCanon] at h
    cases hl : lastCanon score (resolveStep score st e) b r with
    | some c' =>
      rw [hl] at h
      have hcc : c' = c := Option.some.inj h
      rw [hcc] at hl
      exact ih (Inv_resolveStep score e hInv)
        (fun e' he' => he e' (List.mem_cons_of_mem _ he')) hl
    | none =>
      rw [hl] at h
      by_cases hid : e.id = r
      · rw [if_pos hid] at h
        obtain ⟨hT, hN⟩ := he e (List.mem_cons_self _ _) hid
        have hrest : ∀ e' ∈ b, e'.id ≠ r :=
          (lastCanon_eq_none_iff score (resolveStep score st e) b r).mp hl
        cases hf : find_canonical score st e.id e.type (entityName e) with
        | none =>
          have hc : c = e.id := by
            rw [assignedCanonical_eq_of_none score hf] at h
            exact (Option.some.inj h).symm
          subst hc
          have hmem : e.id ∈ keysOf (resolveStep score st e).registry := by
            rw [resolveStep_eq_register score hf,
              registerNew_registry_eq (not_mem_of_find_canonical_none score hf)]
            simp [keysOf]
          have hfind : find_canonical score (resolveStep score st e) r T N = some e.id := by
            rw [← hid]
            exact find_canonical_of_mem score T N hmem
          exact find_stable_list score (Inv_resolveStep score e hInv)
            (fun e' he' hid' => absurd hid' (hrest e' he')) hfind
        | some c0 =>
          have hc : c = c0 := by
            rw [assignedCanonical_eq_of_find score hf] at h
            exact (Option.some.inj h).symm
          have hf' : find_canonical score st r T N = some c0 := by
            rw [← hid, ← hT, ← hN]; exact hf
          have hstep := find_stable_step score hInv
            (fun _ => he e (List.mem_cons_self _ _) hid) hf'
          rw [hc]
          exact find_stable_list score (Inv_resolveStep score e hInv)
            (fun e' he' hid' => absurd hid' (hrest e' he')) hstep
      · rw [if_neg hid] at h
        exact Option.noConfusion h

/-- Conversely, once the find for `(r, T, N)` answers `c`, any later call
whose batch mentions `r` (always with type `T` and name `N`) records
`r ↦ c`. -/
theorem lastCanon_of_find {st : EntityResolver} {b : List RawEntity} {r T N c : String}
    (hInv : Inv st) (he : ∀ e ∈ b, e.id = r → e.type = T ∧ entityName e = N)
    (h : find_canonical score st r T N = some c) (hex : ∃ e ∈ b, e.id = r) :
    lastCanon score st b r = some c := by
  induction b generalizing st with
  | nil => obtain ⟨e, he', _⟩ := hex; exact absurd he' (List.not_mem_nil e)
  | cons e b ih =>
    rw [lastCanon]
    by_cases hrest : ∃ e' ∈ b, e'.id = r
    · have hl := ih (Inv_resolveStep score e hInv)
        (fun e' he' => he e' (List.mem_cons_of_mem _ he'))
        (find_stable_step score hInv (he e (List.mem_cons_self _ _)) h) hrest
      rw [hl]
    · have hnone : lastCanon score (resolveStep score st e) b r = none := by
        rw [lastCanon_eq_none_iff]
        intro e' he' hc
        exact hrest ⟨e', he', hc⟩
      have hid : e.id = r := by
        obtain ⟨e', he', hid'⟩ := hex
        rcases List.mem_cons.mp he' with h1 | h1
        · rw [← h1]; exact hid'
        · exact absurd ⟨e', h1, hid'⟩ hrest
      rw [hnone, if_pos hid]
      obtain ⟨hT, hN⟩ := he e (List.mem_cons_self _ _) hid
      have hf : find_canonical score st e.id e.type (entityName e) = some c := by
        rw [hid, hT, hN]; exact h
      rw [assignedCanonical_eq_of_find score hf]

theorem runBatches_eq_stProcess (st : EntityResolver) (bs : List (List RawEntity)) :
    runBatches score st bs = stProcess score st bs.flatten := by
  induction bs generalizing st with
  | nil => rfl
  | cons b bs ih =>
    rw [List.flatten_cons, stProcess_append]
    show runBatches score (resolve score st b).1 bs = _
    rw [resolve_fst, ih]

/-- A registered canonical entity keeps its type and id across any later
resolution step (merges only touch properties and provenance). -/
theorem typeOf_stable_step {st : EntityResolver} (e : RawEntity) {c : String}
    {ent : ResolvedEntity} (h : dget? st.registry c = some ent) :
    ∃ ent', dget? (resolveStep score st e).registry c = some ent' ∧
      ent'.type = ent.type ∧ ent'.id = ent.id := by
  cases hf : find_canonical score st e.id e.type (entityName e) with
  | some c0 =>
    rw [resolveStep_eq_merge score hf, dget?_mergeInto]
    by_cases hc : c = c0
    · rw [if_pos hc, h]
      exact ⟨mergeEntity ent e, rfl, mergeEntity_type ent e, mergeEntity_id ent e⟩
    · rw [if_neg hc, h]
      exact ⟨ent, rfl, rfl, rfl⟩
  | none =>
    have hid := not_mem_of_find_canonical_none score hf
    have hcmem : c ∈ keysOf st.registry := (mem_keysOf_iff _ _).mpr (by simp [h])
    have hne : c ≠ e.id := fun hc => hid (hc ▸ hcmem)
    rw [resolveStep_eq_register score hf]
    refine ⟨ent, ?_, rfl, rfl⟩
    show dget? (dset st.registry e.id (regEntity e)) c = some ent
    rw [dget?_dset_other _ _ hne]
    exact h

theorem typeOf_stable_list {st : EntityResolver} (l : List RawEntity) {c : String}
    {ent : ResolvedEntity} (h : dget? st.registry c = some ent) :
    ∃ ent', dget? (stProcess score st l).registry c = some ent' ∧
      ent'.type = ent.type ∧ ent'.id = ent.id := by
  induction l generalizing st ent with
  | nil => exact ⟨ent, h, rfl, rfl⟩
  | cons e l ih =>
    rw [stProcess_cons]
    obtain ⟨ent1, h1, hty1, hid1⟩ := typeOf_stable_step score e h
    obtain ⟨ent2, h2, hty2, hid2⟩ := ih h1
    exact ⟨ent2, h2, hty2.trans hty1, hid2.trans hid1⟩

/-- A raw entity whose id is not yet canonical resolves to a canonical
entity of its own type (the fuzzy scan is type-scoped, and registration
uses the entity's own type). -/
theorem assigned_type {st : EntityResolver} {e : RawEntity} (hInv : Inv st)
    (hid : e.id ∉ keysOf st.registry) :
    ∃ ent, dget? (resolveStep score st e).registry (assignedCanonical score st e)
        = some ent ∧ ent.type = e.type := by
  cases hf : find_canonical score st e.id e.type (entityName e) with
  | none =>
    rw [assignedCanonical_eq_of_none score hf, resolveStep_eq_register score hf]
    refine ⟨regEntity e, ?_, rfl⟩
    show dget? (dset st.registry e.id (regEntity e)) e.id = some (regEntity e)
    exact dget?_dset_self _ _ _
  | some c =>
    rw [assignedCanonical_eq_of_find score hf, resolveStep_eq_merge score hf]
    obtain ⟨p, hp, hp1, _⟩ := mem_of_find_canonical_fuzzy score hid hf
    have hty := bucket_typed hInv hp
    cases hd : dget? st.registry p.1 with
    | none => rw [hd] at hty; simp at hty
    | some ent0 =>
      rw [hd] at hty
      simp only [Option.map_some'] at hty
      rw [hp1] at hd
      rw [dget?_mergeInto, if_pos rfl, hd]
      exact ⟨mergeEntity ent0 e, rfl,
        by rw [mergeEntity_type]; exact Option.some.inj hty⟩

theorem map_id_eq_keys {m : List (String × ResolvedEntity)}
    (h : ∀ p ∈ m, p.2.id = p.1) :
    (m.map (fun q => q.2)).map ResolvedEntity.id = keysOf m := by
  rw [List.map_map]
  exact List.map_congr_left (fun p hp => h p hp)

end ResolverLemmas

/-! ## Claims about the entity resolver -/

/-- C2: per incoming raw entity, `resolve` first applies the exact-id
check — if the id is already canonical it merges into that entity and
emits the alias `id → id` — and only on a miss scans the same-type name
bucket in registration order, the first canonical entity scoring at or
above the threshold (default 88) winning; if both checks miss, the entity
is registered as a brand-new canonical entity whose own id becomes
canonical. -/
theorem resolution_algorithm_order (score : String → String → Nat) :
    FUZZY_THRESHOLD = 88 ∧
    (∀ st am (e : RawEntity),
      (e.id ∈ keysOf st.registry →
        resolveFold score (st, am) e = (mergeInto st e.id e, dset am e.id e.id)) ∧
      (e.id ∉ keysOf st.registry →
        ∀ l1 p l2, bucketOf st e.type = l1 ++ p :: l2 →
          (∀ q ∈ l1, fuzzyPred score st (entityName e) q = false) →
          fuzzyPred score st (entityName e) p = true →
          resolveFold score (st, am) e = (mergeInto st p.1 e, dset am e.id p.1)) ∧
      (e.id ∉ keysOf st.registry →
        (∀ q ∈ bucketOf st e.type, fuzzyPred score st (entityName e) q = false) →
        resolveFold score (st, am) e = (registerNew st e, dset am e.id e.id) ∧
          e.id ∈ keysOf (registerNew st e).registry)) := by
  refine ⟨rfl, fun st am e => ⟨?_, ?_, ?_⟩⟩
  · intro hmem
    have hf := find_canonical_of_mem score e.type (entityName e) hmem
    show (resolveStep score st e, dset am e.id (assignedCanonical score st e)) = _
    rw [resolveStep_eq_merge score hf, assignedCanonical_eq_of_find score hf]
  · intro hmem l1 p l2 hsplit hl1 hp
    have hfind : (bucketOf st e.type).find? (fuzzyPred score st (entityName e)) = some p := by
      rw [hsplit, List.find?_append,
        List.find?_eq_none.mpr (fun q hq => by simp [hl1 q hq]),
        List.find?_cons_of_pos _ hp]
      rfl
    have hf : find_canonical score st e.id e.type (entityName e) = some p.1 := by
      rw [find_canonical_of_not_mem score _ _ hmem, hfind]
      rfl
    show (resolveStep score st e, dset am e.id (assignedCanonical score st e)) = _
    rw [resolveStep_eq_merge score hf, assignedCanonical_eq_of_find score hf]
  · intro hmem hall
    have hfind : (bucketOf st e.type).find? (fuzzyPred score st (entityName e)) = none :=
      List.find?_eq_none.mpr (fun q hq => by simp [hall q hq])
    have hf : find_canonical score st e.id e.type (entityName e) = none := by
      rw [find_canonical_of_not_mem score _ _ hmem, hfind]
      rfl
    constructor
    · show (resolveStep score st e, dset am e.id (assignedCanonical score st e)) = _
      rw [resolveStep_eq_register score hf, assignedCanonical_eq_of_none score hf]
    · rw [registerNew_registry_eq hmem]
      simp [keysOf]

/-- Witness for C2, exercising the fuzzy branch on a concrete state: with
`a` registered as a Company named "Infosys", the incoming Company `b`
named "Infosys" is merged into `a` and aliased `b → a`. -/
theorem resolution_algorithm_order_witness :
    resolveFold sampleScore (stOne, []) eInfosysB
      = (mergeInto stOne "a" eInfosysB, dset [] "b" "a") :=
  ((resolution_algorithm_order sampleScore).2 stOne [] eInfosysB).2.1
    (by decide) [] ("a", "Infosys") [] (by decide) (by decide) (by decide)

/-- C1 counterexample: in a session that registered Company `a` named
"Infosys", resolving `{id: b, name: "Infosys"}` aliases `b → a`, yet a
later call resolving `{id: b, name: "Zzz"}` aliases `b → b`: the
established mapping for the raw id `b` changes. -/
theorem alias_stability_counterexample :
    dget? (resolve sampleScore (runBatches sampleScore (initResolver 88)
        [[eInfosysA]]) [eInfosysB]).2.2 "b" = some "a" ∧
    dget? (resolve sampleScore (runBatches sampleScore
        ((resolve sampleScore (runBatches sampleScore (initResolver 88)
          [[eInfosysA]]) [eInfosysB]).1) []) [eZzzB]).2.2 "b" = some "b" ∧
    ("a" : String) ≠ "b" := by
  decide

/-- C1 (amended): once a `resolve` call maps the raw id `r` to the
canonical id `c`, every later `resolve` call whose batch contains `r`
maps it to the same `c`, provided every occurrence of `r` from that call
onwards carries the same entity type and display name (with differing
names or types the mapping can change, as the counterexample shows). -/
theorem alias_stability_amended (score : String → String → Nat) (th : Nat)
    (pre mid : List (List RawEntity)) (b1 b2 : List RawEntity) (r T N c : String)
    (hall : ∀ e ∈ b1 ++ mid.flatten ++ b2, e.id = r → e.type = T ∧ entityName e = N)
    (h1 : dget? (resolve score (runBatches score (initResolver th) pre) b1).2.2 r
        = some c)
    (h2 : ∃ e ∈ b2, e.id = r) :
    dget? (resolve score (runBatches score
        ((resolve score (runBatches score (initResolver th) pre) b1).1) mid) b2).2.2 r
      = some c := by
  have hInv0 : Inv (runBatches score (initResolver th) pre) := by
    rw [runBatches_eq_stProcess]
    exact Inv_stProcess score _ (Inv_init th)
  rw [resolve_alias] at h1
  have hb1 : ∀ e ∈ b1, e.id = r → e.type = T ∧ entityName e = N :=
    fun e he => hall e (by simp [he])
  have hmid : ∀ e ∈ mid.flatten, e.id = r → e.type = T ∧ entityName e = N :=
    fun e he => hall e (by simp [he])
  have hb2 : ∀ e ∈ b2, e.id = r → e.type = T ∧ entityName e = N :=
    fun e he => hall e (by simp [he])
  have hf1 := find_of_lastCanon score hInv0 hb1 h1
  have hInv1 : Inv (stProcess score (runBatches score (initResolver th) pre) b1) :=
    Inv_stProcess score _ hInv0
  rw [resolve_fst, runBatches_eq_stProcess, resolve_alias]
  exact lastCanon_of_find score (Inv_stProcess score _ hInv1) hb2
    (find_stable_list score hInv1 hmid hf1) h2

/-- Witness for C1 (amended): the same session as the counterexample but
with the later occurrence of `b` carrying the same type and name — the
alias stays `b → a`. -/
theorem alias_stability_witness :
    dget? (resolve sampleScore (runBatches sampleScore
        ((resolve sampleScore (runBatches sampleScore (initResolver 88)
          [[eInfosysA]]) [eInfosysB]).1) []) [eInfosysB]).2.2 "b" = some "a" :=
  alias_stability_amended sampleScore 88 [[eInfosysA]] [] [eInfosysB] [eInfosysB]
    "b" "Company" "Infosys" "a" (by decide) (by decide) (by decide)

/-- C3 counterexample: the exact-id check of the resolver is type-blind.
A Company `x` named "Infosys" and a Person `x` with the identical name
both resolve to the same canonical id `x`, although their types differ. -/
theorem type_scoping_counterexample :
    entityName eXCo = entityName eXPe ∧ eXCo.type ≠ eXPe.type ∧
    assignedCanonical sampleScore (initResolver 88) eXCo = "x" ∧
    assignedCanonical sampleScore
      (resolveStep sampleScore (initResolver 88) eXCo) eXPe = "x" := by
  decide

/-- C3 (amended): provided neither raw id is already present as a
canonical id when it is resolved (the exact-id check ignores types), two
entities resolving to the same canonical id have the same entity type —
the fuzzy-name check is type-scoped — and the resolver never demotes or
re-types (nor renames) an existing canonical entity. -/
theorem type_scoping_amended (score : String → String → Nat) (th : Nat)
    (pre : List RawEntity) (e1 : RawEntity) (mid : List RawEntity) (e2 : RawEntity) :
    (e1.id ∉ keysOf (stProcess score (initResolver th) pre).registry →
      e2.id ∉ keysOf (stProcess score
        (resolveStep score (stProcess score (initResolver th) pre) e1) mid).registry →
      assignedCanonical score (stProcess score
          (resolveStep score (stProcess score (initResolver th) pre) e1) mid) e2
        = assignedCanonical score (stProcess score (initResolver th) pre) e1 →
      e1.type = e2.type) ∧
    (∀ c ent l, dget? (stProcess score (initResolver th) pre).registry c = some ent →
      ∃ ent', dget? (stProcess score
          (stProcess score (initResolver th) pre) l).registry c = some ent' ∧
        ent'.type = ent.type ∧ ent'.id = ent.id) := by
  constructor
  · intro h1 h2 h3
    have hInv1 : Inv (stProcess score (initResolver th) pre) :=
      Inv_stProcess score _ (Inv_init th)
    obtain ⟨entA, hA, htyA⟩ := assigned_type score hInv1 h1
    obtain ⟨entB, hB, htyB, _⟩ := typeOf_stable_list score mid hA
    have hInv2 : Inv (stProcess score
        (resolveStep score (stProcess score (initResolver th) pre) e1) mid) :=
      Inv_stProcess score _ (Inv_resolveStep score e1 hInv1)
    obtain ⟨entC, hC, htyC⟩ := assigned_type score hInv2 h2
    rw [h3] at hC
    obtain ⟨entD, hD, htyD, _⟩ := typeOf_stable_step score e2 hB
    rw [hC] at hD
    have : entC = entD := Option.some.inj hD
    rw [← htyA, ← htyB, ← htyD, ← this, htyC]
  · intro c ent l h
    exact typeOf_stable_list score l h

/-- Witness for C3 (amended): Company `a` ("Infosys") and Company `b`
("Infosys") resolve to the same canonical id `a`, and the theorem
confirms their types agree; the registered entity `a` keeps its type
through later processing. -/
theorem type_scoping_witness :
    eInfosysA.type = eInfosysB.type ∧
    (∃ ent', dget? (stProcess sampleScore
        (stProcess sampleScore (initResolver 88) [eInfosysA]) [eZzzB]).registry "a"
          = some ent' ∧
      ent'.type = (regEntity eInfosysA).type ∧ ent'.id = (regEntity eInfosysA).id) :=
  ⟨(type_scoping_amended sampleScore 88 [eInfosysA] eInfosysB [] eInfosysB).1
      (by decide) (by decide) (by decide),
    (type_scoping_amended sampleScore 88 [eInfosysA] eInfosysB [] eInfosysB).2
      "a" (regEntity eInfosysA) [eZzzB] (by decide)⟩

/-- C10: `resolve` returns the full cumulative registry, not just the
current batch — one entry per canonical entity registered in this or any
earlier call on the same instance (ids listed exactly once), the key list
of earlier calls is preserved as a prefix, and the returned list's length
never decreases across successive calls, even for empty or disjoint
batches. -/
theorem resolve_returns_full_registry (score : String → String → Nat) (th : Nat)
    (bs : List (List RawEntity)) (b : List RawEntity) :
    (resolve score (runBatches score (initResolver th) bs) b).2.1
        = (stProcess score (runBatches score (initResolver th) bs) b).registry.map
            (fun q => q.2) ∧
    ((resolve score (runBatches score (initResolver th) bs) b).2.1.map ResolvedEntity.id)
        = keysOf (stProcess score (runBatches score (initResolver th) bs) b).registry ∧
    (∀ c, c ∈ keysOf (stProcess score (runBatches score (initResolver th) bs) b).registry →
      (((resolve score (runBatches score (initResolver th) bs) b).2.1.map
          ResolvedEntity.id).count c) = 1) ∧
    (∃ tail, keysOf (stProcess score (runBatches score (initResolver th) bs) b).registry
        = keysOf (runBatches score (initResolver th) bs).registry ++ tail) ∧
    (runBatches score (initResolver th) bs).registry.length ≤
      (resolve score (runBatches score (initResolver th) bs) b).2.1.length := by
  have hInv0 : Inv (runBatches score (initResolver th) bs) := by
    rw [runBatches_eq_stProcess]
    exact Inv_stProcess score _ (Inv_init th)
  have hInv1 : Inv (stProcess score (runBatches score (initResolver th) bs) b) :=
    Inv_stProcess score _ hInv0
  have hent := resolve_entities score (runBatches score (initResolver th) bs) b
  have hids : ((resolve score (runBatches score (initResolver th) bs) b).2.1.map
      ResolvedEntity.id)
      = keysOf (stProcess score (runBatches score (initResolver th) bs) b).registry := by
    rw [hent]
    exact map_id_eq_keys hInv1.2.1
  obtain ⟨tail, htail⟩ :=
    keysOf_stProcess score (runBatches score (initResolver th) bs) b
  refine ⟨hent, hids, ?_, ⟨tail, htail⟩, ?_⟩
  · intro c hc
    rw [hids]
    exact List.count_eq_one_of_mem hInv1.1 hc
  · have hlen : (resolve score (runBatches score (initResolver th) bs) b).2.1.length
        = (keysOf (stProcess score (runBatches score
            (initResolver th) bs) b).registry).length := by
      rw [← hids, List.length_map]
    rw [hlen, htail, List.length_append]
    simp [keysOf]

/-- Witness for C10: after registering `a`, resolving the disjoint batch
`[eZzzB]` still returns an entry for `a` exactly once. -/
theorem resolve_returns_full_registry_witness :
    (((resolve sampleScore (runBatches sampleScore (initResolver 88) [[eInfosysA]])
        [eZzzB]).2.1.map ResolvedEntity.id).count "a") = 1 :=
  (resolve_returns_full_registry sampleScore 88 [[eInfosysA]] [eZzzB]).2.2.1
    "a" (by decide)

/-! ## Claims about the relationship remapper and property sanitiser -/

theorem foldl_append_singleton {γ δ : Type} (f : γ → δ) (l : List γ) (acc : List δ) :
    l.foldl (fun res x => res ++ [f x]) acc = acc ++ l.map f := by
  induction l generalizing acc with
  | nil => simp
  | cons x l ih => rw [List.foldl_cons, List.map_cons, ih, List.append_assoc]; rfl

/-- C6 counterexample: with the alias map of a session in which both `a`
and `a2` fuzzy-resolved into the canonical id `c`, remapping the two raw
relationships `(a, REPORTS, b)` and `(a2, REPORTS, b)` yields two output
records carrying the identical triple `(c, REPORTS, b)`: the remapper
does not deduplicate. -/
theorem remapper_dedup_counterexample :
    (remap_relationships [rrA, rrA2]
        (resolve sampleScore (initResolver 88) [eInfosysC, eInfosysA, eInfosysA2]).2.2).length
      = 2 ∧
    (remap_relationships [rrA, rrA2]
        (resolve sampleScore (initResolver 88) [eInfosysC, eInfosysA, eInfosysA2]).2.2).map
        (fun r => (r.source_id, r.type, r.target_id))
      = [("c", "REPORTS", "b"), ("c", "REPORTS", "b")] := by
  decide

/-- C6 (amended): `_remap_relationships` rewrites every `sourceId` and
`targetId` through the alias table — ids not present pass through
unchanged — and produces exactly one output record per input record, in
order, with a one-element provenance list; it performs no deduplication,
so duplicate `(sourceId, type, targetId)` triples can remain in its
output. -/
theorem remapper_rewrites_no_dedup (raw_rels : List RawRelationship)
    (alias_map : List (String × String)) :
    remap_relationships raw_rels alias_map =
      raw_rels.map (fun r =>
        { source_id := (dget? alias_map r.source_id).getD r.source_id,
          target_id := (dget? alias_map r.target_id).getD r.target_id,
          type := r.type,
          properties := r.properties,
          sources := [r.source] }) ∧
    (remap_relationships raw_rels alias_map).length = raw_rels.length := by
  have h := foldl_append_singleton
    (fun (r : RawRelationship) =>
      ({ source_id := (dget? alias_map r.source_id).getD r.source_id,
         target_id := (dget? alias_map r.target_id).getD r.target_id,
         type := r.type,
         properties := r.properties,
         sources := [r.source] } : ResolvedRelationship)) raw_rels []
  refine ⟨h, ?_⟩
  rw [remap_relationships, h]
  simp

/-- C8 counterexample: the list `["a", 1]` mixes a string and an integer
— a heterogeneous list — yet `_clean_props` passes it through unchanged
as a list value rather than serialising it to a single string property
(the code only checks that every element is primitive, not that the
element types agree). -/
theorem property_sanitization_counterexample :
    clean_props [("k", .arr (jarrOf [.str "a", .int 1]))]
      = [("k", .arr (jarrOf [.str "a", .int 1]))] ∧
    (dget? (clean_props [("k", .arr (jarrOf [.str "a", .int 1]))]) "k").map JVal.isStr
      = some false := by
  decide

theorem flatten_fold_spec (k : String) (l : List (String × JVal)) :
    ∀ acc : List (String × JVal),
    (∀ k' ∈ (l.filterMap (flattenSub k)).map Prod.fst, k' ∉ keysOf acc) →
    ((l.filterMap (flattenSub k)).map Prod.fst).Nodup →
    l.foldl
      (fun c skv =>
        match flattenSub k skv with
        | none => c
        | some p => dset c p.1 p.2)
      acc
    = acc ++ l.filterMap (flattenSub k) := by
  induction l with
  | nil => intro acc _ _; simp
  | cons skv l ih =>
    intro acc hfr hnd
    rw [List.foldl_cons, List.filterMap_cons]
    rw [List.filterMap_cons] at hfr hnd
    cases hsk : flattenSub k skv with
    | none =>
      rw [hsk] at hfr hnd
      exact ih acc hfr hnd
    | some p =>
      rw [hsk] at hfr hnd
      have hfr1 : ∀ k' ∈ (p :: l.filterMap (flattenSub k)).map Prod.fst,
          k' ∉ keysOf acc := hfr
      have hnd1 : ((p :: l.filterMap (flattenSub k)).map Prod.fst).Nodup := hnd
      rw [List.map_cons] at hfr1 hnd1
      obtain ⟨hhead, htail⟩ := List.nodup_cons.mp hnd1
      have hp1 : p.1 ∉ keysOf acc := hfr1 p.1 (List.mem_cons_self _ _)
      have hfr' : ∀ k' ∈ (l.filterMap (flattenSub k)).map Prod.fst,
          k' ∉ keysOf (dset acc p.1 p.2) := by
        intro k' hk'
        rw [keysOf_dset_of_not_mem _ hp1]
        intro hc
        rcases List.mem_append.mp hc with h1 | h1
        · exact hfr1 k' (List.mem_cons_of_mem _ hk') h1
        · rw [List.mem_singleton] at h1
          exact hhead (h1 ▸ hk')
      show l.foldl
          (fun c skv =>
            match flattenSub k skv with
            | none => c
            | some p => dset c p.1 p.2)
          (dset acc p.1 p.2)
        = acc ++ p :: l.filterMap (flattenSub k)
      rw [ih (dset acc p.1 p.2) hfr' htail,
        dset_eq_append_of_not_mem _ hp1, List.append_assoc, List.singleton_append]

/-- C8 (amended): `_clean_props` equals, entry by entry, the amended
sanitisation rule `cleanEntrySpec` — `None` values dropped, nested
mappings flattened one level into `parentKey_childKey`, all-primitive
lists (even with mixed element types) passed through unchanged, lists
containing a non-primitive element serialised with `json.dumps` to one
string property — whenever the produced keys do not collide (property
dicts with colliding flattened keys would overwrite in place instead). -/
theorem clean_props_spec (props : List (String × JVal))
    (hnd : ((props.flatMap (fun kv => cleanEntrySpec kv.1 kv.2)).map Prod.fst).Nodup) :
    clean_props props = props.flatMap (fun kv => cleanEntrySpec kv.1 kv.2) := by
  suffices h : ∀ acc : List (String × JVal),
      (∀ k' ∈ (props.flatMap (fun kv => cleanEntrySpec kv.1 kv.2)).map Prod.fst,
        k' ∉ keysOf acc) →
      ((props.flatMap (fun kv => cleanEntrySpec kv.1 kv.2)).map Prod.fst).Nodup →
      props.foldl
        (fun clean kv =>
          match kv.2 with
          | .null => clean
          | .obj sub =>
            sub.toList.foldl
              (fun c skv =>
                match skv.2 with
                | .null => c
                | .obj _ => c
                | .arr _ => c
                | v => dset c (kv.1 ++ "_" ++ skv.1) v)
              clean
          | .arr xs =>
            if xs.toList.all isPrimitive then dset clean kv.1 (.arr xs)
            else dset clean kv.1 (.str (json_dumps (.arr xs)))
          | v => dset clean kv.1 v)
        acc
      = acc ++ props.flatMap (fun kv => cleanEntrySpec kv.1 kv.2) by
    have := h [] (by simp [keysOf]) hnd
    simpa [clean_props] using this
  clear hnd
  induction props with
  | nil => intro acc _ _; simp
  | cons kv props ih =>
    intro acc hfr hnd2
    obtain ⟨k0, v0⟩ := kv
    rw [List.foldl_cons, List.flatMap_cons]
    rw [List.flatMap_cons, List.map_append] at hfr hnd2
    have hndh := (List.nodup_append.mp hnd2).1
    have hndt := (List.nodup_append.mp hnd2).2.1
    have hdisj := (List.nodup_append.mp hnd2).2.2
    have hfrh : ∀ k' ∈ (cleanEntrySpec k0 v0).map Prod.fst, k' ∉ keysOf acc :=
      fun k' hk' => hfr k' (List.mem_append_left _ hk')
    have hstep :
        (match ((k0, v0) : String × JVal).2 with
          | .null => acc
          | .obj sub =>
            sub.toList.foldl
              (fun c skv =>
                match skv.2 with
                | .null => c
                | .obj _ => c
                | .arr _ => c
                | v => dset c (((k0, v0) : String × JVal).1 ++ "_" ++ skv.1) v)
              acc
          | .arr xs =>
            if xs.toList.all isPrimitive
            then dset acc ((k0, v0) : String × JVal).1 (.arr xs)
            else dset acc ((k0, v0) : String × JVal).1 (.str (json_dumps (.arr xs)))
          | v => dset acc ((k0, v0) : String × JVal).1 v)
        = acc ++ cleanEntrySpec k0 v0 := by
      cases v0 with
      | null => simp [cleanEntrySpec]
      | bool b =>
        show dset acc k0 (.bool b) = acc ++ cleanEntrySpec k0 (.bool b)
        rw [dset_eq_append_of_not_mem _ (hfrh k0 (by simp [cleanEntrySpec]))]
        rfl
      | int n =>
        show dset acc k0 (.int n) = acc ++ cleanEntrySpec k0 (.int n)
        rw [dset_eq_append_of_not_mem _ (hfrh k0 (by simp [cleanEntrySpec]))]
        rfl
      | str sv =>
        show dset acc k0 (.str sv) = acc ++ cleanEntrySpec k0 (.str sv)
        rw [dset_eq_append_of_not_mem _ (hfrh k0 (by simp [cleanEntrySpec]))]
        rfl
      | arr xs =>
        show (if xs.toList.all isPrimitive
            then dset acc k0 (.arr xs)
            else dset acc k0 (.str (json_dumps (.arr xs))))
          = acc ++ cleanEntrySpec k0 (.arr xs)
        by_cases hall : xs.toList.all isPrimitive
        · rw [if_pos hall,
            dset_eq_append_of_not_mem _ (hfrh k0 (by simp [cleanEntrySpec, hall]))]
          simp [cleanEntrySpec, hall]
        · rw [if_neg hall,
            dset_eq_append_of_not_mem _ (hfrh k0 (by simp [cleanEntrySpec, hall]))]
          simp [cleanEntrySpec, hall]
      | obj sub =>
        show sub.toList.foldl
            (fun c skv =>
              match skv.2 with
              | .null => c
              | .obj _ => c
              | .arr _ => c
              | v => dset c (k0 ++ "_" ++ skv.1) v)
            acc
          = acc ++ cleanEntrySpec k0 (.obj sub)
        have hfun :
            (fun (c : List (String × JVal)) (skv : String × JVal) =>
              match skv.2 with
              | .null => c
              | .obj _ => c
              | .arr _ => c
              | v => dset c (k0 ++ "_" ++ skv.1) v)
            = (fun c skv =>
              match flattenSub k0 skv with
              | none => c
              | some p => dset c p.1 p.2) := by
          funext c skv
          obtain ⟨a, w⟩ := skv
          cases w <;> rfl
        rw [hfun]
        rw [flatten_fold_spec k0 sub.toList acc
          (by simpa [cleanEntrySpec] using hfrh)
          (by simpa [cleanEntrySpec] using hndh)]
        simp [cleanEntrySpec]
    rw [hstep]
    rw [ih (acc ++ cleanEntrySpec k0 v0) ?_ hndt, List.append_assoc]
    intro k' hk'
    intro hc
    rw [keysOf, List.map_append] at hc
    rcases List.mem_append.mp hc with h1 | h1
    · exact hfr k' (List.mem_append_right _ hk') h1
    · exact hdisj h1 hk'

/-- Witness for C8 (amended): on a representative property dict — a
`None` value, a nested mapping with a scalar and a `None` sub-value, an
all-primitive mixed list, a list containing a nested list, and a scalar —
`_clean_props` produces exactly the amended rule's output. -/
theorem clean_props_spec_witness :
    ((([("a", .null), ("b", .obj (jobjOf [("c", .int 1), ("d", .null)])),
        ("e", .arr (jarrOf [.int 1, .str "x"])),
        ("f", .arr (jarrOf [.arr (jarrOf [.int 2])])),
        ("g", .str "y")] : List (String × JVal)).flatMap
          (fun kv => cleanEntrySpec kv.1 kv.2)).map Prod.fst).Nodup ∧
    clean_props
        [("a", .null), ("b", .obj (jobjOf [("c", .int 1), ("d", .null)])),
         ("e", .arr (jarrOf [.int 1, .str "x"])),
         ("f", .arr (jarrOf [.arr (jarrOf [.int 2])])),
         ("g", .str "y")]
      = [("a", .null), ("b", .obj (jobjOf [("c", .int 1), ("d", .null)])),
         ("e", .arr (jarrOf [.int 1, .str "x"])),
         ("f", .arr (jarrOf [.arr (jarrOf [.int 2])])),
         ("g", .str "y")].flatMap (fun kv => cleanEntrySpec kv.1 kv.2) :=
  ⟨by decide, clean_props_spec _ (by decide)⟩

/-! ## Claims about the Neo4j writer -/

theorem write_relationships_nil (db : GraphDB) : write_relationships db [] = db := rfl

theorem write_relationships_cons (db : GraphDB) (r : ResolvedRelationship)
    (rels : List ResolvedRelationship) :
    write_relationships db (r :: rels) = write_relationships (write_relationship db r) rels := rfl

theorem write_relationship_nodes (db : GraphDB) (r : ResolvedRelationship) :
    (write_relationship db r).nodes = db.nodes := by
  unfold write_relationship
  split
  · rfl
  · rfl

theorem write_relationship_edges_pos {db : GraphDB} {r : ResolvedRelationship}
    (hc : (dget? db.nodes r.source_id).isSome ∧ (dget? db.nodes r.target_id).isSome) :
    ∃ rec, (write_relationship db r).edges
      = dset db.edges (r.source_id, r.type, r.target_id) rec := by
  refine ⟨EdgeRec.mk (dset
      (dupd ((dget? db.edges (r.source_id, r.type, r.target_id)).getD (EdgeRec.mk [])).props
        (clean_props r.properties))
      "sources" (.arr (jarrOf (docIdsOf r.sources)))), ?_⟩
  unfold write_relationship
  rw [if_pos hc]

theorem write_relationship_eq_of_neg {db : GraphDB} {r : ResolvedRelationship}
    (hc : ¬ ((dget? db.nodes r.source_id).isSome ∧ (dget? db.nodes r.target_id).isSome)) :
    write_relationship db r = db := by
  unfold write_relationship
  rw [if_neg hc]

/-- Claim C5: counterexample.  The `MERGE (a)-[r:TYPE]->(b)` pattern of
`Neo4jWriter.write_relationships` carries no properties, so the edge key is
`(sourceId, type, targetId)` only: writing `(a, REPORTS, b)` once with
`filing_year = 2022` and once with `filing_year = 2023` yields a single
edge, not two distinct edges, and the later write's `filing_year`
overwrites the earlier one via `SET r += props`. -/
theorem relationship_key_counterexample :
    ((write_relationships wdb0 [rFY22, rFY23]).edges.map Prod.fst)
      = [("a", "REPORTS", "b")] ∧
    (dget? (write_relationships wdb0 [rFY22, rFY23]).edges ("a", "REPORTS", "b")).map
      (fun rec => dget? rec.props "filing_year") = some (some (.int 2023)) := by
  decide

/-- Claim C5 (amended): in the written graph, canonical relationships are
unique by `(sourceId, type, targetId)` ALONE — the filing year is not part
of the uniqueness key.  Starting from a store whose edge keys are
duplicate-free, after `write_relationships` the edge keys are still
duplicate-free, and an edge key is present exactly when it was already
present or some written relationship with both endpoint nodes present in
the store carries that triple; hence any number of relationships sharing a
triple — with equal or different filing years — collapse to one edge. -/
theorem relationship_key_amended (db : GraphDB) (rels : List ResolvedRelationship)
    (hnd : (keysOf db.edges).Nodup) :
    (keysOf (write_relationships db rels).edges).Nodup ∧
    ∀ k : String × String × String,
      k ∈ keysOf (write_relationships db rels).edges ↔
        k ∈ keysOf db.edges ∨
        ∃ r ∈ rels, (dget? db.nodes r.source_id).isSome = true ∧
          (dget? db.nodes r.target_id).isSome = true ∧
          k = (r.source_id, r.type, r.target_id) := by
  induction rels generalizing db with
  | nil =>
    refine ⟨hnd, fun k => ?_⟩
    simp [write_relationships_nil]
  | cons r rels ih =>
    rw [write_relationships_cons]
    by_cases hc : (dget? db.nodes r.source_id).isSome ∧ (dget? db.nodes r.target_id).isSome
    · obtain ⟨rec, hre⟩ := write_relationship_edges_pos hc
      have hnodes := write_relationship_nodes db r
      have hnd1 : (keysOf (write_relationship db r).edges).Nodup := by
        rw [hre]
        exact nodup_keysOf_dset hnd
      obtain ⟨ihnd, ihmem⟩ := ih (write_relationship db r) hnd1
      refine ⟨ihnd, fun k => ?_⟩
      rw [ihmem k, hre, hnodes, mem_keysOf_dset_iff]
      constructor
      · rintro ((rfl | hk) | ⟨r1, hr1, h1, h2, rfl⟩)
        · exact Or.inr ⟨r, List.mem_cons_self r rels, hc.1, hc.2, rfl⟩
        · exact Or.inl hk
        · exact Or.inr ⟨r1, List.mem_cons_of_mem r hr1, h1, h2, rfl⟩
      · rintro (hk | ⟨r1, hr1, h1, h2, rfl⟩)
        · exact Or.inl (Or.inr hk)
        · rcases List.mem_cons.mp hr1 with rfl | hr1
          · exact Or.inl (Or.inl rfl)
          · exact Or.inr ⟨r1, hr1, h1, h2, rfl⟩
    · rw [write_relationship_eq_of_neg hc]
      obtain ⟨ihnd, ihmem⟩ := ih db hnd
      refine ⟨ihnd, fun k => ?_⟩
      rw [ihmem k]
      constructor
      · rintro (hk | ⟨r1, hr1, h1, h2, rfl⟩)
        · exact Or.inl hk
        · exact Or.inr ⟨r1, List.mem_cons_of_mem r hr1, h1, h2, rfl⟩
      · rintro (hk | ⟨r1, hr1, h1, h2, rfl⟩)
        · exact Or.inl hk
        · rcases List.mem_cons.mp hr1 with rfl | hr1
          · exact absurd ⟨h1, h2⟩ hc
          · exact Or.inr ⟨r1, hr1, h1, h2, rfl⟩

/-- Witness for C5 (amended): the theorem applied to the two-node store and
the pair of same-triple, different-filing-year relationships. -/
theorem relationship_key_witness :
    (keysOf wdb0.edges).Nodup ∧
    ((keysOf (write_relationships wdb0 [rFY22, rFY23]).edges).Nodup ∧
     ∀ k : String × String × String,
       k ∈ keysOf (write_relationships wdb0 [rFY22, rFY23]).edges ↔
         k ∈ keysOf wdb0.edges ∨
         ∃ r ∈ [rFY22, rFY23], (dget? wdb0.nodes r.source_id).isSome = true ∧
           (dget? wdb0.nodes r.target_id).isSome = true ∧
           k = (r.source_id, r.type, r.target_id)) :=
  ⟨by decide, relationship_key_amended wdb0 [rFY22, rFY23] (by decide)⟩

/-! ## Claims about the window merger -/

theorem dedup_aux_spec (rels : List Relationship) :
    ∀ seen, ((dedup_aux seen rels).map relKey).Nodup ∧
      ∀ k ∈ (dedup_aux seen rels).map relKey, k ∉ seen := by
  induction rels with
  | nil =>
    intro seen
    constructor
    · simp [dedup_aux]
    · simp [dedup_aux]
  | cons r rest ih =>
    intro seen
    by_cases hk : relKey r ∈ seen
    · rw [show dedup_aux seen (r :: rest) = dedup_aux seen rest from by
        simp [dedup_aux, hk]]
      exact ih seen
    · rw [show dedup_aux seen (r :: rest) = r :: dedup_aux (relKey r :: seen) rest from by
        simp [dedup_aux, hk]]
      obtain ⟨ihnd, ihmem⟩ := ih (relKey r :: seen)
      constructor
      · rw [List.map_cons, List.nodup_cons]
        refine ⟨fun hmem => ?_, ihnd⟩
        exact (ihmem _ hmem) (List.mem_cons_self _ _)
      · intro k hkmem
        rw [List.map_cons, List.mem_cons] at hkmem
        rcases hkmem with rfl | hkmem
        · exact hk
        · intro hks
          exact (ihmem k hkmem) (List.mem_cons_of_mem _ hks)

theorem mem_dedup_aux (rels : List Relationship) :
    ∀ seen k, k ∈ (dedup_aux seen rels).map relKey ↔
      k ∈ rels.map relKey ∧ k ∉ seen := by
  induction rels with
  | nil => intro seen k; simp [dedup_aux]
  | cons r rest ih =>
    intro seen k
    by_cases hk : relKey r ∈ seen
    · rw [show dedup_aux seen (r :: rest) = dedup_aux seen rest from by
        simp [dedup_aux, hk]]
      rw [ih seen k, List.map_cons]
      constructor
      · rintro ⟨hm, hns⟩
        exact ⟨List.mem_cons_of_mem _ hm, hns⟩
      · rintro ⟨hm0, hns⟩
        rcases List.mem_cons.mp hm0 with rfl | hm
        · exact absurd hk hns
        · exact ⟨hm, hns⟩
    · rw [show dedup_aux seen (r :: rest) = r :: dedup_aux (relKey r :: seen) rest from by
        simp [dedup_aux, hk]]
      rw [List.map_cons, List.map_cons]
      constructor
      · intro h0
        rcases List.mem_cons.mp h0 with rfl | hm
        · exact ⟨List.mem_cons_self _ _, hk⟩
        · obtain ⟨hm1, hns⟩ := (ih (relKey r :: seen) k).mp hm
          exact ⟨List.mem_cons_of_mem _ hm1, fun hs => hns (List.mem_cons_of_mem _ hs)⟩
      · rintro ⟨hm0, hns⟩
        rcases List.mem_cons.mp hm0 with rfl | hm
        · exact List.mem_cons_self _ _
        · by_cases hrk : k = relKey r
          · rw [hrk]
            exact List.mem_cons_self _ _
          · refine List.mem_cons_of_mem _ ((ih (relKey r :: seen) k).mpr ⟨hm, ?_⟩)
            intro hcs
            rcases List.mem_cons.mp hcs with h1 | h1
            · exact hrk h1
            · exact hns h1

/-- Claim C7: within one document, `process_document` returns a
relationship set with at most one relationship per
`(source_id, type, target_id, filing_year)` quadruple, and the quadruples
are exactly those accumulated over all windows before deduplication — so
two overlapping windows reporting the same relationship with the same
filing year contribute exactly one copy. -/
theorem window_overlap_dedup (oracle : Oracle) (docId : String) (pages : List Page)
    (W S : Nat) (res : ExtractionResult)
    (h : process_document oracle docId pages W S = .ok res) :
    (res.relationships.map relKey).Nodup ∧
    ∀ res0, process_windows oracle docId pages (build_windows W S pages.length)
        { document_id := docId, entities := [], relationships := [], errors := [] }
        = .ok res0 →
      ∀ k, k ∈ res.relationships.map relKey ↔ k ∈ res0.relationships.map relKey := by
  unfold process_document at h
  cases hw : process_windows oracle docId pages (build_windows W S pages.length)
      { document_id := docId, entities := [], relationships := [], errors := [] } with
  | error m =>
    rw [hw] at h
    exact Except.noConfusion h
  | ok res0 =>
    rw [hw] at h
    have h2 := Except.ok.inj h
    constructor
    · rw [← h2]
      exact (dedup_aux_spec res0.relationships []).1
    · intro res1 hw1 k
      have h3 := Except.ok.inj hw1
      rw [← h2, ← h3]
      show k ∈ (dedup_aux [] res0.relationships).map relKey ↔
        k ∈ res0.relationships.map relKey
      rw [mem_dedup_aux]
      simp

/-- Witness for C7: the three-page document processed with overlapping
windows `(0,2)` and `(1,3)`, both reporting the same `REPORTS`
relationship — one copy survives. -/
theorem window_overlap_dedup_witness :
    process_document okOracle "doc1" threePages 2 1 = .ok okResult ∧
    ((okResult.relationships.map relKey).Nodup ∧
     ∀ res0, process_windows okOracle "doc1" threePages
         (build_windows 2 1 threePages.length)
         { document_id := "doc1", entities := [], relationships := [], errors := [] }
         = .ok res0 →
       ∀ k, k ∈ okResult.relationships.map relKey ↔ k ∈ res0.relationships.map relKey) :=
  ⟨by decide, window_overlap_dedup okOracle "doc1" threePages 2 1 okResult (by decide)⟩

theorem process_windows_cons (oracle : Oracle) (docId : String) (pages : List Page)
    (w : Nat × Nat) (ws : List (Nat × Nat)) (res : ExtractionResult) :
    process_windows oracle docId pages (w :: ws) res =
      match process_window oracle docId pages res w with
      | .error m => .error m
      | .ok res1 => process_windows oracle docId pages ws res1 := rfl

theorem process_window_eq (oracle : Oracle) (docId : String) (pages : List Page)
    (res : ExtractionResult) (w : Nat × Nat) {pr : String}
    (hpr : window_range (windowSlice pages w) = some pr) :
    process_window oracle docId pages res w =
      match oracle (windowSlice pages w) (res.entities.map (fun e => e.id)) pr with
      | .failure =>
        .ok { res with errors := res.errors ++ [{ pages := pr, message := "LLM call failed" }] }
      | .notJson snip =>
        .ok { res with
              errors := res.errors ++ [{ pages := pr, message := "JSON decode error: " ++ snip }] }
      | .payload d =>
        match parse_llm_response docId d with
        | .error msg => .error msg
        | .ok (ents, rels) =>
          .ok { res with
                entities := merge_entities res.entities ents,
                relationships := res.relationships ++ rels } := by
  simp only [process_window]
  rw [hpr]

theorem process_windows_clean (replyFor : String → OracleReply) (docId : String)
    (pages : List Page) (ws : List (Nat × Nat)) :
    ∀ res : ExtractionResult,
      (∀ w ∈ ws, windowClean replyFor docId pages w = true) →
      process_windows (oracleOf replyFor) docId pages ws res =
        .ok { document_id := res.document_id,
              entities := (windowOks replyFor docId pages ws).foldl
                (fun a p => merge_entities a p.1) res.entities,
              relationships := res.relationships ++
                (windowOks replyFor docId pages ws).flatMap (fun p => p.2),
              errors := res.errors ++ windowErrs replyFor pages ws } := by
  induction ws with
  | nil =>
    intro res _
    simp [process_windows, windowOks, windowErrs]
  | cons w ws ih =>
    intro res hclean
    have hct : ∀ w1 ∈ ws, windowClean replyFor docId pages w1 = true :=
      fun w1 hw1 => hclean w1 (List.mem_cons_of_mem _ hw1)
    have hcw2 : (match window_range (windowSlice pages w) with
        | none => false
        | some pr => parsesOk docId (replyFor pr)) = true :=
      hclean w (List.mem_cons_self _ _)
    cases hpr : window_range (windowSlice pages w) with
    | none =>
      rw [hpr] at hcw2
      simp at hcw2
    | some pr =>
      rw [hpr] at hcw2
      have hcw3 : parsesOk docId (replyFor pr) = true := hcw2
      have horacle : oracleOf replyFor (windowSlice pages w)
          (res.entities.map (fun e => e.id)) pr = replyFor pr := rfl
      cases hrep : replyFor pr with
      | failure =>
        have hpw : process_window (oracleOf replyFor) docId pages res w =
            .ok { res with
                  errors := res.errors ++ [{ pages := pr, message := "LLM call failed" }] } := by
          rw [process_window_eq (oracleOf replyFor) docId pages res w hpr, horacle, hrep]
        rw [process_windows_cons, hpw]
        show process_windows (oracleOf replyFor) docId pages ws
            { res with errors := res.errors ++ [{ pages := pr, message := "LLM call failed" }] }
          = _
        rw [ih _ hct]
        simp [windowOks, windowErrs, List.filterMap_cons, hpr, hrep, errOfReply, okOfReply,
          List.append_assoc]
      | notJson snip =>
        have hpw : process_window (oracleOf replyFor) docId pages res w =
            .ok { res with
                  errors := res.errors ++
                    [{ pages := pr, message := "JSON decode error: " ++ snip }] } := by
          rw [process_window_eq (oracleOf replyFor) docId pages res w hpr, horacle, hrep]
        rw [process_windows_cons, hpw]
        show process_windows (oracleOf replyFor) docId pages ws
            { res with
              errors := res.errors ++ [{ pages := pr, message := "JSON decode error: " ++ snip }] }
          = _
        rw [ih _ hct]
        simp [windowOks, windowErrs, List.filterMap_cons, hpr, hrep, errOfReply, okOfReply,
          List.append_assoc]
      | payload d =>
        rw [hrep] at hcw3
        have hcw4 : (!isError (parse_llm_response docId d)) = true := hcw3
        cases hpd : parse_llm_response docId d with
        | error m =>
          rw [hpd] at hcw4
          simp [isError] at hcw4
        | ok p =>
          have hpw : process_window (oracleOf replyFor) docId pages res w =
              .ok { res with
                    entities := merge_entities res.entities p.1,
                    relationships := res.relationships ++ p.2 } := by
            rw [process_window_eq (oracleOf replyFor) docId pages res w hpr, horacle, hrep]
            show (match parse_llm_response docId d with
              | Except.error msg => Except.error msg
              | Except.ok (ents, rels) =>
                Except.ok { res with
                  entities := merge_entities res.entities ents,
                  relationships := res.relationships ++ rels })
              = _
            rw [hpd]
          rw [process_windows_cons, hpw]
          show process_windows (oracleOf replyFor) docId pages ws
              { res with
                entities := merge_entities res.entities p.1,
                relationships := res.relationships ++ p.2 }
            = _
          rw [ih _ hct]
          simp [windowOks, windowErrs, List.filterMap_cons, hpr, hrep, hpd, errOfReply,
            okOfReply, List.append_assoc]

/-- Claim C9: counterexample.  Only transport failures and non-JSON
payloads are handled per window; a decoded JSON payload whose entity
record lacks the required `"id"` member raises an uncaught `KeyError` in
`_parse_llm_response` that ABORTS the whole document: with the middle of
three windows returning such a payload, `process_document` yields an
exception instead of two windows' results plus one recorded error. -/
theorem partial_failure_counterexample :
    (build_windows 3 2 sevenPages.length).length = 3 ∧
    isError (process_document crashOracle "doc1" sevenPages 3 2) = true := by
  decide

/-- Claim C9 (amended): when every window's reply is a transport failure,
a non-JSON payload, or a JSON payload that parses without an uncaught
exception, the document is not aborted: each failing window records
exactly one error tagged with its page range, processing proceeds to the
next window, and the result carries exactly the entities and
relationships of the succeeding windows (merged and deduplicated), plus
the per-window error list.  A payload with missing required fields is NOT
in this class — it aborts the document. -/
theorem partial_failure_amended (replyFor : String → OracleReply) (docId : String)
    (pages : List Page) (W S : Nat)
    (hclean : ∀ w ∈ build_windows W S pages.length,
      windowClean replyFor docId pages w = true) :
    process_document (oracleOf replyFor) docId pages W S =
      .ok { document_id := docId,
            entities := (windowOks replyFor docId pages
                (build_windows W S pages.length)).foldl
              (fun a p => merge_entities a p.1) [],
            relationships := deduplicate_relationships
              ((windowOks replyFor docId pages
                (build_windows W S pages.length)).flatMap (fun p => p.2)),
            errors := windowErrs replyFor pages (build_windows W S pages.length) } := by
  unfold process_document
  rw [process_windows_clean replyFor docId pages (build_windows W S pages.length)
    { document_id := docId, entities := [], relationships := [], errors := [] } hclean]
  simp

/-- Witness for C9 (amended): a seven-page document with three windows
whose middle window (pages `3-5`) suffers a transport failure. -/
theorem partial_failure_witness :
    (∀ w ∈ build_windows 3 2 sevenPages.length,
      windowClean replyFail "doc1" sevenPages w = true) ∧
    process_document (oracleOf replyFail) "doc1" sevenPages 3 2 =
      .ok { document_id := "doc1",
            entities := (windowOks replyFail "doc1" sevenPages
                (build_windows 3 2 sevenPages.length)).foldl
              (fun a p => merge_entities a p.1) [],
            relationships := deduplicate_relationships
              ((windowOks replyFail "doc1" sevenPages
                (build_windows 3 2 sevenPages.length)).flatMap (fun p => p.2)),
            errors := windowErrs replyFail sevenPages (build_windows 3 2 sevenPages.length) } :=
  ⟨by decide, partial_failure_amended replyFail "doc1" sevenPages 3 2 (by decide)⟩

/-! ## Claims about re-ingestion (replay of one batch) -/

section ReplayLemmas

variable (score : String → String → Nat)

theorem mergeFold_nil (ent : ResolvedEntity) : mergeFold ent [] = ent := rfl

theorem mergeFold_cons (ent : ResolvedEntity) (e : RawEntity) (es : List RawEntity) :
    mergeFold ent (e :: es) = mergeFold (mergeEntity ent e) es := rfl

theorem flatProps_nil : flatProps [] = [] := rfl

theorem flatProps_cons (e : RawEntity) (es : List RawEntity) :
    flatProps (e :: es) = e.properties ++ flatProps es := by
  simp [flatProps]

theorem mergeFold_id (ent : ResolvedEntity) (es : List RawEntity) :
    (mergeFold ent es).id = ent.id := by
  induction es generalizing ent with
  | nil => rfl
  | cons e es ih => rw [mergeFold_cons, ih, mergeEntity_id]

theorem mergeFold_type (ent : ResolvedEntity) (es : List RawEntity) :
    (mergeFold ent es).type = ent.type := by
  induction es generalizing ent with
  | nil => rfl
  | cons e es ih => rw [mergeFold_cons, ih, mergeEntity_type]

theorem mergeFold_properties (ent : ResolvedEntity) (es : List RawEntity) :
    (mergeFold ent es).properties = dupd ent.properties (flatProps es) := by
  induction es generalizing ent with
  | nil => simp [mergeFold_nil, flatProps_nil, dupd_nil]
  | cons e es ih =>
    rw [mergeFold_cons, ih, flatProps_cons, dupd_append]
    rfl

theorem mergeFold_sources_mono {src : List (String × JVal)} (ent : ResolvedEntity)
    (es : List RawEntity) (h : src ∈ ent.sources) :
    src ∈ (mergeFold ent es).sources := by
  induction es generalizing ent with
  | nil => exact h
  | cons e es ih =>
    rw [mergeFold_cons]
    apply ih
    show src ∈ (if e.source ≠ [] ∧ e.source ∉ ent.sources
      then ent.sources ++ [e.source] else ent.sources)
    split
    · exact List.mem_append_left _ h
    · exact h

theorem mergeFold_source_mem (ent : ResolvedEntity) (es : List RawEntity) :
    ∀ e ∈ es, e.source ≠ [] → e.source ∈ (mergeFold ent es).sources := by
  induction es generalizing ent with
  | nil => intro e he; cases he
  | cons e0 es ih =>
    intro e he hne
    rw [mergeFold_cons]
    rcases List.mem_cons.mp he with rfl | he
    · apply mergeFold_sources_mono
      show e.source ∈ (if e.source ≠ [] ∧ e.source ∉ ent.sources
        then ent.sources ++ [e.source] else ent.sources)
      by_cases hmem : e.source ∈ ent.sources
      · rw [if_neg (fun hc => hc.2 hmem)]
        exact hmem
      · rw [if_pos ⟨hne, hmem⟩]
        exact List.mem_append_right _ (List.mem_singleton.mpr rfl)
    · exact ih _ e he hne

theorem mergeFold_sources_stable (ent : ResolvedEntity) (es : List RawEntity)
    (h : ∀ e ∈ es, e.source ≠ [] → e.source ∈ ent.sources) :
    (mergeFold ent es).sources = ent.sources := by
  induction es generalizing ent with
  | nil => rfl
  | cons e es ih =>
    rw [mergeFold_cons]
    have hsrc : (mergeEntity ent e).sources = ent.sources := by
      show (if e.source ≠ [] ∧ e.source ∉ ent.sources
        then ent.sources ++ [e.source] else ent.sources) = ent.sources
      by_cases hne : e.source = []
      · rw [if_neg (fun hc => hc.1 hne)]
      · rw [if_neg (fun hc => hc.2 (h e (List.mem_cons_self _ _) hne))]
    have hih := ih (mergeEntity ent e) (by
      intro e1 he1 hne1
      rw [hsrc]
      exact h e1 (List.mem_cons_of_mem _ he1) hne1)
    rw [hih, hsrc]

theorem resolved_entity_ext {a b : ResolvedEntity} (h1 : a.id = b.id)
    (h2 : a.type = b.type) (h3 : a.properties = b.properties)
    (h4 : a.sources = b.sources) : a = b := by
  cases a
  cases b
  simp_all

theorem resolver_ext {a b : EntityResolver} (h1 : a.threshold = b.threshold)
    (h2 : a.registry = b.registry) (h3 : a.name_index = b.name_index) : a = b := by
  cases a
  cases b
  simp_all

theorem mem_of_dget?_eq_some {α β : Type} [DecidableEq α] {m : List (α × β)} {k : α}
    {v : β} (h : dget? m k = some v) : (k, v) ∈ m := by
  unfold dget? at h
  cases hf : m.find? (fun p => p.1 = k) with
  | none =>
    rw [hf] at h
    exact Option.noConfusion h
  | some p =>
    rw [hf] at h
    have hp := List.mem_of_find?_eq_some hf
    have hk : p.1 = k := by simpa using List.find?_some hf
    have hv : p.2 = v := Option.some.inj h
    rw [← hk, ← hv]
    exact hp

theorem find_canonical_congr {s t : EntityResolver}
    (hth : s.threshold = t.threshold) (hni : s.name_index = t.name_index)
    (hkeys : keysOf s.registry = keysOf t.registry) (r T N : String) :
    find_canonical score s r T N = find_canonical score t r T N := by
  by_cases hr : r ∈ keysOf s.registry
  · rw [find_canonical_of_mem score T N hr,
      find_canonical_of_mem score T N (hkeys ▸ hr)]
  · have hr2 : r ∉ keysOf t.registry := by
      rw [← hkeys]
      exact hr
    rw [find_canonical_of_not_mem score T N hr, find_canonical_of_not_mem score T N hr2]
    have hb : bucketOf s T = bucketOf t T := by
      show (dget? s.name_index T).getD [] = (dget? t.name_index T).getD []
      rw [hni]
    have hp : fuzzyPred score s N = fuzzyPred score t N := by
      funext q
      simp [fuzzyPred, hth]
    rw [hb, hp]

theorem find_canonical_some_mem {st : EntityResolver} (hInv : Inv st)
    {r T N c : String} (h : find_canonical score st r T N = some c) :
    c ∈ keysOf st.registry := by
  by_cases hr : r ∈ keysOf st.registry
  · rw [find_canonical_of_mem score T N hr] at h
    have hrc : r = c := Option.some.inj h
    rw [← hrc]
    exact hr
  · obtain ⟨p, hp, hp1, _⟩ := mem_of_find_canonical_fuzzy score hr h
    exact hp1 ▸ mem_registry_of_bucket hInv hp

theorem InvP_resolveStep {st : EntityResolver} (e : RawEntity) (hP : InvP st)
    (he : (keysOf e.properties).Nodup) : InvP (resolveStep score st e) := by
  cases hf : find_canonical score st e.id e.type (entityName e) with
  | none =>
    rw [resolveStep_eq_register score hf]
    intro p hp
    have hp2 : p ∈ dset st.registry e.id (regEntity e) := hp
    rcases mem_dset hp2 with h1 | h1
    · rw [h1]
      exact he
    · exact hP p h1
  | some c =>
    rw [resolveStep_eq_merge score hf]
    intro p hp
    obtain ⟨p0, hp0, hpe⟩ := List.mem_map.mp hp
    by_cases h : p0.1 = c
    · rw [← hpe]
      simp only [if_pos h]
      show (keysOf (dupd p0.2.properties e.properties)).Nodup
      exact nodup_keysOf_dupd _ (hP p0 hp0)
    · rw [← hpe]
      simp only [if_neg h]
      exact hP p0 hp0

theorem InvP_stProcess {st : EntityResolver} (l : List RawEntity) (hP : InvP st)
    (hl : ∀ e ∈ l, (keysOf e.properties).Nodup) : InvP (stProcess score st l) := by
  induction l generalizing st with
  | nil => exact hP
  | cons e l ih =>
    rw [stProcess_cons]
    exact ih (InvP_resolveStep score e hP (hl e (List.mem_cons_self _ _)))
      (fun e1 he1 => hl e1 (List.mem_cons_of_mem _ he1))

theorem eq_of_mem_of_nodup_ids {b : List RawEntity}
    (hids : (b.map RawEntity.id).Nodup) {e e1 : RawEntity}
    (he : e ∈ b) (he1 : e1 ∈ b) (hid : e.id = e1.id) : e = e1 := by
  induction b with
  | nil => cases he
  | cons x b ih =>
    rw [List.map_cons, List.nodup_cons] at hids
    rcases List.mem_cons.mp he with hea | hea
    · rcases List.mem_cons.mp he1 with heb | heb
      · rw [hea, heb]
      · exfalso
        apply hids.1
        rw [← hea, hid]
        exact List.mem_map_of_mem _ heb
    · rcases List.mem_cons.mp he1 with heb | heb
      · exfalso
        apply hids.1
        rw [← heb, ← hid]
        exact List.mem_map_of_mem _ hea
      · exact ih hids.2 hea heb

theorem assigned_stable {s : EntityResolver} (hInv : Inv s) (e : RawEntity)
    (l : List RawEntity) (hid : ∀ e1 ∈ l, e1.id ≠ e.id) :
    assignedCanonical score (stProcess score (resolveStep score s e) l) e
      = assignedCanonical score s e := by
  cases hf : find_canonical score s e.id e.type (entityName e) with
  | some c =>
    rw [assignedCanonical_eq_of_find score hf]
    have h1 := find_stable_step score hInv (fun _ => ⟨rfl, rfl⟩) hf
    have h2 := find_stable_list score (Inv_resolveStep score e hInv)
      (fun e1 he1 hid1 => absurd hid1 (hid e1 he1)) h1
    rw [assignedCanonical_eq_of_find score h2]
  | none =>
    rw [assignedCanonical_eq_of_none score hf]
    have hmem : e.id ∈ keysOf (resolveStep score s e).registry := by
      rw [resolveStep_eq_register score hf,
        registerNew_registry_eq (not_mem_of_find_canonical_none score hf)]
      simp [keysOf]
    have h2 := mem_keysOf_stProcess score l hmem
    rw [assignedCanonical_eq_of_find score (find_canonical_of_mem score _ _ h2)]

theorem find_isSome_final {st : EntityResolver} {b : List RawEntity}
    (hInv : Inv st) (hids : (b.map RawEntity.id).Nodup) :
    ∀ e ∈ b, (find_canonical score (stProcess score st b) e.id e.type
      (entityName e)).isSome = true := by
  induction b generalizing st with
  | nil => intro e he; cases he
  | cons x l ih =>
    rw [List.map_cons, List.nodup_cons] at hids
    intro e he
    rw [stProcess_cons]
    rcases List.mem_cons.mp he with rfl | he
    · cases hf : find_canonical score st e.id e.type (entityName e) with
      | none =>
        have hmem : e.id ∈ keysOf (resolveStep score st e).registry := by
          rw [resolveStep_eq_register score hf,
            registerNew_registry_eq (not_mem_of_find_canonical_none score hf)]
          simp [keysOf]
        rw [find_canonical_of_mem score _ _ (mem_keysOf_stProcess score l hmem)]
        rfl
      | some c =>
        have h1 := find_stable_step score hInv (fun _ => ⟨rfl, rfl⟩) hf
        have h2 := find_stable_list score (Inv_resolveStep score e hInv)
          (fun e1 he1 hid1 =>
            absurd (hid1 ▸ List.mem_map_of_mem RawEntity.id he1) hids.1) h1
        rw [h2]
        rfl
    · exact ih (Inv_resolveStep score x hInv) hids.2 e he

theorem pass1_registry_char {st1 : EntityResolver} :
    ∀ (l : List RawEntity) (s : EntityResolver), Inv s →
      (l.map RawEntity.id).Nodup →
      stProcess score s l = st1 →
      ∀ c, dget? st1.registry c =
        match dget? s.registry c with
        | some ent0 => some (mergeFold ent0
            (l.filter (fun e => assignedCanonical score st1 e = c)))
        | none =>
          match l.filter (fun e => assignedCanonical score st1 e = c) with
          | [] => none
          | e0 :: rest => some (mergeFold (regEntity e0) rest) := by
  intro l
  induction l with
  | nil =>
    intro s _ _ hst1 c
    rw [stProcess_nil] at hst1
    subst hst1
    cases dget? s.registry c <;> simp [mergeFold_nil]
  | cons e l ih =>
    intro s hInv hids hst1 c
    rw [stProcess_cons] at hst1
    rw [List.map_cons, List.nodup_cons] at hids
    have hid : ∀ e1 ∈ l, e1.id ≠ e.id := by
      intro e1 he1 hc
      exact hids.1 (by rw [← hc]; exact List.mem_map_of_mem _ he1)
    have hq : assignedCanonical score st1 e = assignedCanonical score s e := by
      rw [← hst1]
      exact assigned_stable score hInv e l hid
    cases hf : find_canonical score s e.id e.type (entityName e) with
    | none =>
      have ha : assignedCanonical score s e = e.id :=
        assignedCanonical_eq_of_none score hf
      have hnotmem := not_mem_of_find_canonical_none score hf
      have hreg : (resolveStep score s e).registry
          = dset s.registry e.id (regEntity e) := by
        rw [resolveStep_eq_register score hf]
        rfl
      by_cases hc : assignedCanonical score st1 e = c
      · have hce : c = e.id := by rw [← hc, hq, ha]
        have hnone : dget? s.registry c = none := by
          rw [hce]
          exact dget?_eq_none_of_not_mem hnotmem
        have hfilter : (e :: l).filter (fun e2 => assignedCanonical score st1 e2 = c)
            = e :: l.filter (fun e2 => assignedCanonical score st1 e2 = c) := by
          simp [List.filter_cons, hc]
        rw [hnone]
        show dget? st1.registry c =
          match (e :: l).filter (fun e2 => assignedCanonical score st1 e2 = c) with
          | [] => none
          | e0 :: rest => some (mergeFold (regEntity e0) rest)
        rw [hfilter]
        show dget? st1.registry c = some (mergeFold (regEntity e)
          (l.filter (fun e2 => assignedCanonical score st1 e2 = c)))
        have hs1 : dget? (resolveStep score s e).registry c = some (regEntity e) := by
          rw [hreg, hce]
          exact dget?_dset_self _ _ _
        have hih := ih (resolveStep score s e) (Inv_resolveStep score e hInv)
          hids.2 hst1 c
        rw [hs1] at hih
        exact hih
      · have hcne : c ≠ e.id := by
          intro hcc
          exact hc (by rw [hq, ha, hcc])
        have hfilter : (e :: l).filter (fun e2 => assignedCanonical score st1 e2 = c)
            = l.filter (fun e2 => assignedCanonical score st1 e2 = c) := by
          simp [List.filter_cons, hc]
        have hs1 : dget? (resolveStep score s e).registry c = dget? s.registry c := by
          rw [hreg]
          exact dget?_dset_other _ _ hcne
        have hih := ih (resolveStep score s e) (Inv_resolveStep score e hInv)
          hids.2 hst1 c
        rw [hs1] at hih
        simp only [hfilter]
        exact hih
    | some c0 =>
      have ha : assignedCanonical score s e = c0 :=
        assignedCanonical_eq_of_find score hf
      have hstep : resolveStep score s e = mergeInto s c0 e :=
        resolveStep_eq_merge score hf
      have hc0mem : c0 ∈ keysOf s.registry := find_canonical_some_mem score hInv hf
      obtain ⟨ent0, hent0⟩ : ∃ ent0, dget? s.registry c0 = some ent0 :=
        Option.isSome_iff_exists.mp ((mem_keysOf_iff s.registry c0).mp hc0mem)
      by_cases hc : assignedCanonical score st1 e = c
      · have hcc0 : c = c0 := by rw [← hc, hq, ha]
        have hent0c : dget? s.registry c = some ent0 := by
          rw [hcc0]
          exact hent0
        have hfilter : (e :: l).filter (fun e2 => assignedCanonical score st1 e2 = c)
            = e :: l.filter (fun e2 => assignedCanonical score st1 e2 = c) := by
          simp [List.filter_cons, hc]
        have hs1 : dget? (resolveStep score s e).registry c
            = some (mergeEntity ent0 e) := by
          rw [hstep, dget?_mergeInto, if_pos hcc0, hent0c]
          rfl
        have hih := ih (resolveStep score s e) (Inv_resolveStep score e hInv)
          hids.2 hst1 c
        rw [hs1] at hih
        rw [hent0c]
        show dget? st1.registry c = some (mergeFold ent0
          ((e :: l).filter (fun e2 => assignedCanonical score st1 e2 = c)))
        rw [hfilter, mergeFold_cons]
        exact hih
      · have hcne : c ≠ c0 := fun hcc => hc (by rw [hq, ha, hcc])
        have hfilter : (e :: l).filter (fun e2 => assignedCanonical score st1 e2 = c)
            = l.filter (fun e2 => assignedCanonical score st1 e2 = c) := by
          simp [List.filter_cons, hc]
        have hs1 : dget? (resolveStep score s e).registry c = dget? s.registry c := by
          rw [hstep, dget?_mergeInto, if_neg hcne]
        have hih := ih (resolveStep score s e) (Inv_resolveStep score e hInv)
          hids.2 hst1 c
        rw [hs1] at hih
        simp only [hfilter]
        exact hih

theorem refold {st : EntityResolver} {b : List RawEntity}
    (hInv : Inv st) (hP : InvP st)
    (hids : (b.map RawEntity.id).Nodup)
    (hprops : ∀ e ∈ b, (keysOf e.properties).Nodup)
    {c : String} {ent : ResolvedEntity}
    (hent : dget? (stProcess score st b).registry c = some ent) :
    mergeFold ent (b.filter (fun e =>
      assignedCanonical score (stProcess score st b) e = c)) = ent := by
  have hchar := pass1_registry_char score b st hInv hids rfl c
  rw [hent] at hchar
  cases hd : dget? st.registry c with
  | some ent0 =>
    rw [hd] at hchar
    have hent_eq : ent = mergeFold ent0 (b.filter (fun e =>
        assignedCanonical score (stProcess score st b) e = c)) :=
      Option.some.inj hchar
    have hnd0 : (keysOf ent0.properties).Nodup := hP (c, ent0) (mem_of_dget?_eq_some hd)
    have hprops_eq : ent.properties = dupd ent0.properties (flatProps (b.filter (fun e =>
        assignedCanonical score (stProcess score st b) e = c))) := by
      rw [hent_eq, mergeFold_properties]
    have hnd : (keysOf ent.properties).Nodup := by
      rw [hprops_eq]
      exact nodup_keysOf_dupd _ hnd0
    apply resolved_entity_ext (mergeFold_id ent _) (mergeFold_type ent _) ?_ ?_
    · rw [mergeFold_properties]
      apply dupd_eq_self hnd
      intro k v hu
      rw [hprops_eq, dget?_dupd, hu]
    · apply mergeFold_sources_stable
      intro e he hne
      rw [hent_eq]
      exact mergeFold_source_mem ent0 _ e he hne
  | none =>
    rw [hd] at hchar
    cases hF : b.filter (fun e =>
        assignedCanonical score (stProcess score st b) e = c) with
    | nil =>
      rw [hF] at hchar
      exact absurd hchar (by simp)
    | cons e0 rest =>
      rw [hF] at hchar
      have hent_eq : ent = mergeFold (regEntity e0) rest := Option.some.inj hchar
      have he0b : e0 ∈ b := by
        have hmem : e0 ∈ e0 :: rest := List.mem_cons_self _ _
        rw [← hF] at hmem
        exact List.mem_of_mem_filter hmem
      have hnd0 : (keysOf e0.properties).Nodup := hprops e0 he0b
      have hprops_eq : ent.properties = dupd e0.properties (flatProps rest) := by
        rw [hent_eq, mergeFold_properties]
        rfl
      have hnd : (keysOf ent.properties).Nodup := by
        rw [hprops_eq]
        exact nodup_keysOf_dupd _ hnd0
      apply resolved_entity_ext (mergeFold_id ent _) (mergeFold_type ent _) ?_ ?_
      · rw [mergeFold_properties, flatProps_cons]
        apply dupd_eq_self hnd
        intro k v hu
        rw [updLast_append] at hu
        cases hur : updLast (flatProps rest) k with
        | some w =>
          rw [hur] at hu
          have hvw : v = w := (Option.some.inj hu).symm
          rw [hprops_eq, dget?_dupd, hur]
          show some w = some v
          rw [hvw]
        | none =>
          rw [hur] at hu
          have hu2 : updLast e0.properties k = some v := hu
          rw [hprops_eq, dget?_dupd, hur]
          show dget? e0.properties k = some v
          rw [← updLast_eq_dget? hnd0]
          exact hu2
      · apply mergeFold_sources_stable
        intro e he hne
        rcases List.mem_cons.mp he with rfl | he
        · rw [hent_eq]
          apply mergeFold_sources_mono
          show e.source ∈ (if e.source ≠ [] then [e.source] else [])
          rw [if_pos hne]
          exact List.mem_singleton.mpr rfl
        · rw [hent_eq]
          exact mergeFold_source_mem (regEntity e0) rest e he hne

theorem replay_aux {st1 : EntityResolver} :
    ∀ (q : List RawEntity) (s : EntityResolver),
      s.threshold = st1.threshold →
      s.name_index = st1.name_index →
      keysOf s.registry = keysOf st1.registry →
      (∀ e ∈ q, (find_canonical score st1 e.id e.type (entityName e)).isSome = true) →
      (stProcess score s q).threshold = s.threshold ∧
      (stProcess score s q).name_index = s.name_index ∧
      keysOf (stProcess score s q).registry = keysOf s.registry ∧
      ∀ c, dget? (stProcess score s q).registry c =
        (dget? s.registry c).map
          (fun ent => mergeFold ent
            (q.filter (fun e => assignedCanonical score st1 e = c))) := by
  intro q
  induction q with
  | nil =>
    intro s _ _ _ _
    refine ⟨rfl, rfl, rfl, fun c => ?_⟩
    rw [stProcess_nil]
    cases dget? s.registry c <;> simp [mergeFold_nil]
  | cons e q ih =>
    intro s hth hni hkeys hsome
    obtain ⟨c0, hf1⟩ : ∃ c0, find_canonical score st1 e.id e.type (entityName e)
        = some c0 :=
      Option.isSome_iff_exists.mp (hsome e (List.mem_cons_self _ _))
    have hfs : find_canonical score s e.id e.type (entityName e) = some c0 := by
      rw [find_canonical_congr score hth hni hkeys]
      exact hf1
    have ha1 : assignedCanonical score st1 e = c0 :=
      assignedCanonical_eq_of_find score hf1
    have hstep : resolveStep score s e = mergeInto s c0 e :=
      resolveStep_eq_merge score hfs
    rw [stProcess_cons, hstep]
    obtain ⟨ih1, ih2, ih3, ih4⟩ := ih (mergeInto s c0 e)
      (by rw [mergeInto_threshold]; exact hth)
      (by rw [mergeInto_name_index]; exact hni)
      (by rw [keysOf_mergeInto]; exact hkeys)
      (fun e1 he1 => hsome e1 (List.mem_cons_of_mem _ he1))
    refine ⟨?_, ?_, ?_, ?_⟩
    · rw [ih1, mergeInto_threshold]
    · rw [ih2, mergeInto_name_index]
    · rw [ih3, keysOf_mergeInto]
    · intro c
      rw [ih4 c, dget?_mergeInto]
      by_cases hc : c = c0
      · have hfilter : (e :: q).filter (fun e2 => assignedCanonical score st1 e2 = c)
            = e :: q.filter (fun e2 => assignedCanonical score st1 e2 = c) := by
          simp [List.filter_cons, ha1, hc]
        rw [if_pos hc]
        cases hd : dget? s.registry c with
        | none => simp
        | some ent =>
          simp only [Option.map_some']
          rw [hfilter, mergeFold_cons]
      · have hc0c : ¬ c0 = c := fun hcc => hc hcc.symm
        have hfilter : (e :: q).filter (fun e2 => assignedCanonical score st1 e2 = c)
            = q.filter (fun e2 => assignedCanonical score st1 e2 = c) := by
          simp [List.filter_cons, ha1, hc0c]
        rw [if_neg hc]
        simp only [hfilter]

theorem stProcess_replay {st : EntityResolver} {b : List RawEntity}
    (hInv : Inv st) (hP : InvP st)
    (hids : (b.map RawEntity.id).Nodup)
    (hprops : ∀ e ∈ b, (keysOf e.properties).Nodup) :
    stProcess score (stProcess score st b) b = stProcess score st b := by
  have hInv1 : Inv (stProcess score st b) := Inv_stProcess score b hInv
  obtain ⟨h1, h2, h3, h4⟩ := replay_aux score b (stProcess score st b) rfl rfl rfl
    (find_isSome_final score hInv hids)
  have hreg : (stProcess score (stProcess score st b) b).registry
      = (stProcess score st b).registry := by
    apply (dict_ext hInv1.1 h3.symm ?_).symm
    intro k
    rw [h4 k]
    cases hd : dget? (stProcess score st b).registry k with
    | none => rfl
    | some ent =>
      simp only [Option.map_some']
      rw [refold score hInv hP hids hprops hd]
  exact resolver_ext h1 hreg h2

theorem lastCanon_replay {st : EntityResolver} {b : List RawEntity}
    (hInv : Inv st) (hids : (b.map RawEntity.id).Nodup) (r : String) :
    lastCanon score (stProcess score st b) b r = lastCanon score st b r := by
  cases hlc : lastCanon score st b r with
  | none =>
    exact (lastCanon_eq_none_iff score (stProcess score st b) b r).mpr
      ((lastCanon_eq_none_iff score st b r).mp hlc)
  | some c =>
    have hex : ∃ e ∈ b, e.id = r := by
      by_contra hne
      push_neg at hne
      have hn : lastCanon score st b r = none :=
        (lastCanon_eq_none_iff score st b r).mpr hne
      rw [hlc] at hn
      exact Option.noConfusion hn
    obtain ⟨e, heb, hid⟩ := hex
    have he : ∀ e1 ∈ b, e1.id = r → e1.type = e.type ∧ entityName e1 = entityName e := by
      intro e1 he1 hid1
      have hee : e1 = e := eq_of_mem_of_nodup_ids hids he1 heb (hid1.trans hid.symm)
      rw [hee]
      exact ⟨rfl, rfl⟩
    have hf1 := find_of_lastCanon score hInv he hlc
    exact lastCanon_of_find score (Inv_stProcess score b hInv) he hf1 ⟨e, heb, hid⟩

theorem remapper_helper (alias_map : List (String × String))
    (raw_rels : List RawRelationship) :
    remap_relationships raw_rels alias_map =
      raw_rels.map (fun r =>
        { source_id := (dget? alias_map r.source_id).getD r.source_id,
          target_id := (dget? alias_map r.target_id).getD r.target_id,
          type := r.type,
          properties := r.properties,
          sources := [r.source] }) :=
  foldl_append_singleton
    (fun (r : RawRelationship) =>
      ({ source_id := (dget? alias_map r.source_id).getD r.source_id,
         target_id := (dget? alias_map r.target_id).getD r.target_id,
         type := r.type,
         properties := r.properties,
         sources := [r.source] } : ResolvedRelationship)) raw_rels []

theorem remap_relationships_congr {am1 am2 : List (String × String)}
    (h : ∀ r, dget? am1 r = dget? am2 r) (rels : List RawRelationship) :
    remap_relationships rels am1 = remap_relationships rels am2 := by
  rw [remapper_helper am1 rels, remapper_helper am2 rels]
  apply List.map_congr_left
  intro r _
  rw [h r.source_id, h r.target_id]

end ReplayLemmas

/-- Claim C4: counterexample.  Resolving `dupBatch` once registers `b`
with properties `{name: Zzz}` (its first occurrence fuzzy-merged into `a`,
its second registered fresh); resolving the same batch again makes the
first occurrence of `b` hit the exact-id check and merge `{name: Infosys,
extra: 1}` into the registered `b`, leaving `b` with the extra property —
the canonical entity set changes on re-ingestion. -/
theorem reingestion_idempotence_counterexample :
    (dget? (resolve sampleScore (initResolver 88) dupBatch).1.registry "b").map
        (fun ent => ent.properties) = some [("name", .str "Zzz")] ∧
    (dget? (resolve sampleScore
          (resolve sampleScore (initResolver 88) dupBatch).1 dupBatch).1.registry "b").map
        (fun ent => ent.properties)
      = some [("name", .str "Zzz"), ("extra", .int 1)] ∧
    (resolve sampleScore
        (resolve sampleScore (initResolver 88) dupBatch).1 dupBatch).2.1
      ≠ (resolve sampleScore (initResolver 88) dupBatch).2.1 := by
  decide

/-- Claim C4 (amended): when the batch's raw ids are pairwise distinct
(and all property dicts are duplicate-key-free, as Python dicts are),
resolving the same batch a second time on the post-state leaves the
resolver state unchanged — same canonical ids, types, properties and
sources — returns the same entity list, records the same alias mapping
for every raw id, and therefore remaps the document's relationships to
the same canonical relationship records.  With a duplicated raw id the
canonical entity set can change, as the counterexample shows. -/
theorem reingestion_idempotence_amended (score : String → String → Nat)
    (st : EntityResolver) (b : List RawEntity) (rels : List RawRelationship)
    (hInv : Inv st) (hP : InvP st)
    (hids : (b.map RawEntity.id).Nodup)
    (hprops : ∀ e ∈ b, (keysOf e.properties).Nodup) :
    (resolve score (resolve score st b).1 b).1 = (resolve score st b).1 ∧
    (resolve score (resolve score st b).1 b).2.1 = (resolve score st b).2.1 ∧
    (∀ r, dget? (resolve score (resolve score st b).1 b).2.2 r
        = dget? (resolve score st b).2.2 r) ∧
    remap_relationships rels (resolve score (resolve score st b).1 b).2.2
      = remap_relationships rels (resolve score st b).2.2 := by
  have hst : (resolve score st b).1 = stProcess score st b := resolve_fst score st b
  have hreplay := stProcess_replay score hInv hP hids hprops
  have halias : ∀ r, dget? (resolve score (resolve score st b).1 b).2.2 r
      = dget? (resolve score st b).2.2 r := by
    intro r
    rw [resolve_alias, resolve_alias, hst, lastCanon_replay score hInv hids]
  refine ⟨?_, ?_, halias, ?_⟩
  · rw [resolve_fst, resolve_fst]
    exact hreplay
  · rw [resolve_entities, resolve_entities, hst, hreplay]
  · exact remap_relationships_congr halias rels

/-- Witness for C4 (amended): the distinct-id batch `[a, b]` resolved
twice from a fresh resolver — state, entity list, alias map and remapped
relationships all repeat exactly. -/
theorem reingestion_idempotence_witness :
    (Inv (initResolver 88) ∧ InvP (initResolver 88) ∧
     (([eInfosysA, eInfosysB].map RawEntity.id).Nodup) ∧
     (∀ e ∈ [eInfosysA, eInfosysB], (keysOf e.properties).Nodup)) ∧
    ((resolve sampleScore (resolve sampleScore (initResolver 88)
          [eInfosysA, eInfosysB]).1 [eInfosysA, eInfosysB]).1
        = (resolve sampleScore (initResolver 88) [eInfosysA, eInfosysB]).1 ∧
     (resolve sampleScore (resolve sampleScore (initResolver 88)
          [eInfosysA, eInfosysB]).1 [eInfosysA, eInfosysB]).2.1
        = (resolve sampleScore (initResolver 88) [eInfosysA, eInfosysB]).2.1 ∧
     (∀ r, dget? (resolve sampleScore (resolve sampleScore (initResolver 88)
            [eInfosysA, eInfosysB]).1 [eInfosysA, eInfosysB]).2.2 r
          = dget? (resolve sampleScore (initResolver 88) [eInfosysA, eInfosysB]).2.2 r) ∧
     remap_relationships [rrA] (resolve sampleScore (resolve sampleScore (initResolver 88)
          [eInfosysA, eInfosysB]).1 [eInfosysA, eInfosysB]).2.2
        = remap_relationships [rrA]
            (resolve sampleScore (initResolver 88) [eInfosysA, eInfosysB]).2.2) :=
  ⟨⟨by decide, by decide, by decide, by decide⟩,
    reingestion_idempotence_amended sampleScore (initResolver 88)
      [eInfosysA, eInfosysB] [rrA] (by decide) (by decide) (by decide) (by decide)⟩

end GammaPoc
